import Mathlib

/-!
Verification of the invert-indexeddb full-text search engine.

This file gives a shallow embedding of the engine's core components —
the mixed CJK/Latin tokenizer, the n-gram / Levenshtein fuzzy-matching
module, the inverted index and its mutation protocol, the query parser,
the cursor-paginated searcher and the legacy sorter — and proves the
specification claims about them.

Modelling conventions:
* JavaScript strings are Lean `String`s; all characters appearing in the
  sources are in the Basic Multilingual Plane, so JS UTF-16 indices and
  lengths coincide with character counts.
* JavaScript numbers used as counts, document ids and sort keys are `Nat`
  (they are non-negative integers in the source); comparator return values
  are `Int`; the similarity score is an exact rational `ℚ` (the source
  computes `1 - distance / maxLen` on floats; no claim depends on float
  rounding).
* `Set` objects are `Finset`s, `Map`s are association lists, and the
  IndexedDB object stores are association lists keyed as in the schema.
* Asynchronous methods are pure state-passing functions: each method takes
  the store contents it reads and returns the updated contents.
* A JavaScript value that may be `undefined`/non-string is an
  `Option String`, `none` standing for the non-string case.
-/

namespace InvIdx

/-- Token record produced by a tokenizer (`types.ts`): the normalized term
together with its position and length in the original string. -/
structure Token where
  term : String
  position : Nat
  length : Nat
deriving DecidableEq, Repr

/-! ### N-gram / fuzzy module (`indexer/ngram.ts`, revision with the adaptive
threshold) -/

/-- Substring of `text` starting at character index `i`, of length `n`
(JS `text.substring(i, i + n)` for in-range arguments). -/
def substringAt (text : String) (i n : Nat) : String :=
  String.mk ((text.data.drop i).take n)

/-- Embedding of `generateNGrams`: all contiguous length-`n` substrings,
left to right; empty or too-short input yields the single-element list
containing the whole text. -/
def generateNGrams (text : String) (n : Nat) : List String :=
  if text.isEmpty ∨ text.length < n then [text]
  else (List.range (text.length - n + 1)).map (fun i => substringAt text i n)

/-- Embedding of `generateNGramsCombined`: the 2-grams followed by the
3-grams. -/
def generateNGramsCombined (text : String) : List String :=
  generateNGrams text 2 ++ generateNGrams text 3

/-- Recurrence computed by the dynamic-programming matrix of
`levenshteinDistance`: cost-1 insert/delete/substitute edit distance on
character lists.  The base cases return the other argument's length, and
the step takes the minimum of the delete, insert and substitute branches,
exactly as the source fills `matrix[i][j]`. -/
def levChars : List Char → List Char → Nat
  | [], t => t.length
  | s, [] => s.length
  | a :: s, b :: t =>
    if a = b then levChars s t
    else 1 + min (levChars s (b :: t)) (min (levChars (a :: s) t) (levChars s t))
termination_by s t => s.length + t.length
decreasing_by all_goals simp +arith

/-- Embedding of `levenshteinDistance` on strings. -/
def levenshteinDistance (str1 str2 : String) : Nat :=
  levChars str1.data str2.data

/-- Embedding of `similarity`: `1 - distance / maxLen`, and `1` when both
strings are empty. -/
def similarity (str1 str2 : String) : ℚ :=
  let maxLen := max str1.length str2.length
  if maxLen = 0 then 1
  else 1 - (levenshteinDistance str1 str2 : ℚ) / (maxLen : ℚ)

/-- Embedding of `findSimilarTerms`: keep the candidates whose similarity to
the target reaches the threshold, sorted by similarity descending.  The JS
`Array.prototype.sort` with comparator `(a, b) => b.similarity - a.similarity`
is a stable sort, modelled by `List.mergeSort`. -/
def findSimilarTerms (targetTerm : String) (candidateTerms : List String)
    (threshold : ℚ) : List (String × ℚ) :=
  let results := candidateTerms.filterMap (fun term =>
    let sim := similarity targetTerm term
    if threshold ≤ sim then some (term, sim) else none)
  results.mergeSort (fun a b => decide (b.2 ≤ a.2))

/-- Lookup in the `termNGramMap` (a JS `Map<string, Set<string>>`, modelled
as an association list from gram to candidate set). -/
def gramMapGet (m : List (String × Finset String)) (g : String) :
    Option (Finset String) :=
  (m.find? (fun p => p.1 = g)).map (fun p => p.2)

/-- One step of `candidateCounts.set(candidate, (candidateCounts.get(candidate) || 0) + 1)`
on the association-list model of the count map. -/
def bumpCount : List (String × Nat) → String → List (String × Nat)
  | [], c => [(c, 1)]
  | p :: tl, c => if p.1 = c then (p.1, p.2 + 1) :: tl else p :: bumpCount tl c

/-- Candidate set recorded in the n-gram map for a gram (empty for an
absent gram). -/
def gramSetOf (m : List (String × Finset String)) (g : String) : Finset String :=
  (gramMapGet m g).getD ∅

/-- Count recorded for candidate `c` in the count map
(`candidateCounts.get(c) || 0`). -/
def countOf : List (String × Nat) → String → Nat
  | [], _ => 0
  | p :: tl, c => if p.1 = c then p.2 else countOf tl c

/-- Body of the outer loop of `findCandidatesByNGram` for one target gram:
bump the count of every candidate recorded for that gram.  A JS `Set` is
iterated in insertion order; the model iterates the candidate `Finset` in
sorted order, which changes nothing observable since only the
per-candidate totals are used. -/
def tallyStep (m : List (String × Finset String)) (acc : List (String × Nat))
    (g : String) : List (String × Nat) :=
  match gramMapGet m g with
  | some cands => (cands.sort (· ≤ ·)).foldl bumpCount acc
  | none => acc

/-- Count map accumulated by the outer loop over the target's grams. -/
def tallyCounts (m : List (String × Finset String)) (grams : List String) :
    List (String × Nat) :=
  grams.foldl (tallyStep m) []

/-- Embedding of `findCandidatesByNGram` (the revision with the adaptive
threshold): tally, per candidate, how many of the target's combined 2-gram
and 3-gram occurrences hit the candidate's precomputed gram set, then keep
the candidates whose tally reaches `minMatches`; when `minMatches` is not
supplied it is derived from the target's length (`≤ 4 → 1`, `≤ 7 → 2`,
else `3`). -/
def findCandidatesByNGram (targetTerm : String)
    (termNGramMap : List (String × Finset String)) (minMatches : Option Nat) :
    Finset String :=
  let targetGrams := generateNGramsCombined targetTerm
  let candidateCounts := tallyCounts termNGramMap targetGrams
  let adaptiveMinMatches :=
    match minMatches with
    | none =>
      if targetTerm.length ≤ 4 then 1
      else if targetTerm.length ≤ 7 then 2
      else 3
    | some k => k
  candidateCounts.foldl
    (fun result p => if adaptiveMinMatches ≤ p.2 then insert p.1 result else result)
    ∅

/-! ### Mixed CJK/Latin tokenizer (`indexer/tokenizer/mixed.ts`) -/

/-- Character class test of `isChinese`: the three CJK ranges of the source
regex `[一-鿿㐀-䶿豈-﫿]`. -/
def isChinese (c : Char) : Bool :=
  (0x4e00 ≤ c.toNat ∧ c.toNat ≤ 0x9fff) ∨
  (0x3400 ≤ c.toNat ∧ c.toNat ≤ 0x4dbf) ∨
  (0xf900 ≤ c.toNat ∧ c.toNat ≤ 0xfaff)

/-- Character class test of `isEnglish` (`[a-zA-Z]`). -/
def isEnglish (c : Char) : Bool :=
  (0x41 ≤ c.toNat ∧ c.toNat ≤ 0x5a) ∨ (0x61 ≤ c.toNat ∧ c.toNat ≤ 0x7a)

/-- Character class test of `isDigit` (`\d`). -/
def isDigitChar (c : Char) : Bool :=
  0x30 ≤ c.toNat ∧ c.toNat ≤ 0x39

/-- Test of `shouldSkip`: whitespace, or anything that is neither CJK nor
Latin nor a digit. -/
def shouldSkip (c : Char) : Bool :=
  c.isWhitespace ∨ (¬ isChinese c ∧ ¬ isEnglish c ∧ ¬ isDigitChar c)

/-- The apostrophe character admitted inside Latin words by the
`englishWordRegex`. -/
def apostropheChar : Char := Char.ofNat 39

theorem dropWhile_length_le {α : Type} (p : α → Bool) (l : List α) :
    (l.dropWhile p).length ≤ l.length :=
  (List.dropWhile_sublist p).length_le

/-- Continuation part `(?:[-'][a-zA-Z]+)*` of the `englishWordRegex`:
greedily consume separator-plus-letters segments.  Returns the consumed
characters and the remaining input. -/
def extendEnglishWord : List Char → List Char × List Char
  | c :: d :: tl =>
    if (c = Char.ofNat 45 ∨ c = apostropheChar) ∧ isEnglish d then
      let seg := (d :: tl).takeWhile isEnglish
      let rest := (d :: tl).dropWhile isEnglish
      let more := extendEnglishWord rest
      (c :: seg ++ more.1, more.2)
    else ([], c :: d :: tl)
  | other => ([], other)
termination_by cs => cs.length
decreasing_by
  simp only [List.dropWhile_cons]
  split
  · have h1 := dropWhile_length_le isEnglish tl
    simp only [List.length_cons]
    omega
  · simp

/-- Match of the anchored `englishWordRegex` `[a-zA-Z]+(?:[-'][a-zA-Z]+)*`:
the matched characters and the rest of the input.  Used only at positions
whose first character is a Latin letter, where the regex match starts at
offset 0, as in `processEnglishWord`. -/
def matchEnglishWord (cs : List Char) : List Char × List Char :=
  let run := cs.takeWhile isEnglish
  let rest := cs.dropWhile isEnglish
  let more := extendEnglishWord rest
  (run ++ more.1, more.2)

/-- Match of the anchored `numberRegex` `\d+(?:\.\d+)?`, as used by
`processNumber`. -/
def matchNumber (cs : List Char) : List Char × List Char :=
  let run := cs.takeWhile isDigitChar
  let rest := cs.dropWhile isDigitChar
  match rest with
  | c :: d :: tl =>
    if c = Char.ofNat 46 ∧ isDigitChar d then
      (run ++ c :: (d :: tl).takeWhile isDigitChar, (d :: tl).dropWhile isDigitChar)
    else (run, rest)
  | _ => (run, rest)

theorem extendEnglishWord_length_le (cs : List Char) :
    (extendEnglishWord cs).2.length ≤ cs.length := by
  induction cs using extendEnglishWord.induct with
  | case1 c d tl h rest ih =>
    rw [extendEnglishWord, if_pos h]
    refine le_trans ih ?_
    have hr : rest = List.dropWhile isEnglish (d :: tl) := rfl
    rw [hr]
    have h1 := dropWhile_length_le isEnglish (d :: tl)
    simp only [List.length_cons] at h1 ⊢
    omega
  | case2 c d tl h =>
    rw [extendEnglishWord, if_neg h]
  | case3 other h =>
    cases other with
    | nil => simp [extendEnglishWord]
    | cons c rest =>
      cases rest with
      | nil => simp [extendEnglishWord]
      | cons d tl => exact absurd rfl (h c d tl)

theorem matchEnglishWord_rest_lt (c : Char) (cs : List Char) (h : isEnglish c) :
    (matchEnglishWord (c :: cs)).2.length < (c :: cs).length := by
  show (extendEnglishWord ((c :: cs).dropWhile isEnglish)).2.length < (c :: cs).length
  refine lt_of_le_of_lt (extendEnglishWord_length_le _) ?_
  simp only [List.dropWhile_cons, h, if_true, List.length_cons]
  have h1 := dropWhile_length_le isEnglish cs
  omega

theorem matchNumber_rest_lt (c : Char) (cs : List Char) (h : isDigitChar c) :
    (matchNumber (c :: cs)).2.length < (c :: cs).length := by
  have hdrop : ((c :: cs).dropWhile isDigitChar).length ≤ cs.length := by
    simp only [List.dropWhile_cons, h, if_true]
    exact dropWhile_length_le isDigitChar cs
  unfold matchNumber
  cases hrest : (c :: cs).dropWhile isDigitChar with
  | nil => simp_all
  | cons c2 rest2 =>
    cases rest2 with
    | nil =>
      simp only [hrest] at hdrop
      simp only [List.length_cons] at hdrop ⊢
      omega
    | cons d tl =>
      simp only []
      split
      · have h2 := dropWhile_length_le isDigitChar (d :: tl)
        rw [hrest] at hdrop
        simp only [List.length_cons] at hdrop h2 ⊢
        omega
      · rw [hrest] at hdrop
        simp only [List.length_cons] at hdrop ⊢
        omega

/-- Embedding of `processChineseChars`: collect the contiguous CJK run
starting at `pos`, emit one token per character and, when the run has at
least two characters, one token per 2-gram window. -/
def processChineseChars (run : List Char) (pos : Nat) : List Token :=
  let chineseText := String.mk run
  let unigrams := (List.range run.length).map (fun j =>
    { term := substringAt chineseText j 1, position := pos + j, length := 1 : Token })
  let bigrams :=
    if 2 ≤ run.length then
      (generateNGrams chineseText 2).enum.map (fun p =>
        { term := p.2, position := pos + p.1, length := 2 : Token })
    else []
  unigrams ++ bigrams

/-- Main scanning loop of `MixedTokenizer.tokenize`: classify the character
at the current position, emit the tokens `processToken` produces for it and
continue at `nextPos`. -/
def mixedTokenizeLoop : List Char → Nat → List Token
  | [], _ => []
  | c :: rest, pos =>
    if shouldSkip c then mixedTokenizeLoop rest (pos + 1)
    else if isEnglish c then
      let m := matchEnglishWord (c :: rest)
      { term := String.mk (m.1.map Char.toLower), position := pos,
        length := m.1.length : Token } :: mixedTokenizeLoop m.2 (pos + m.1.length)
    else if isDigitChar c then
      let m := matchNumber (c :: rest)
      { term := String.mk m.1, position := pos,
        length := m.1.length : Token } :: mixedTokenizeLoop m.2 (pos + m.1.length)
    else if isChinese c then
      let run := (c :: rest).takeWhile isChinese
      processChineseChars run pos ++
        mixedTokenizeLoop ((c :: rest).dropWhile isChinese) (pos + run.length)
    else mixedTokenizeLoop rest (pos + 1)
termination_by cs _ => cs.length
decreasing_by
  · simp
  · exact matchEnglishWord_rest_lt _ _ (by assumption)
  · exact matchNumber_rest_lt _ _ (by assumption)
  · simp only [List.dropWhile_cons, List.length_cons]
    split
    · have h1 := dropWhile_length_le isChinese rest
      omega
    · simp_all
  · simp

/-- Embedding of `MixedTokenizer.tokenize`, including the guard that returns
the empty token list for empty or non-string input (`none` models a
non-string argument). -/
def mixedTokenize : Option String → List Token
  | none => []
  | some text => if text.isEmpty then [] else mixedTokenizeLoop text.data 0

/-- The tokenizer function handed to components that consume an `ITokenizer`
on genuine strings. -/
def mixedTok (s : String) : List Token :=
  mixedTokenize (some s)

/-! ### Query parser (`searcher/query-parser.ts`) -/

/-- Result of `QueryParser.parse`. -/
structure ParseResult where
  terms : List String
  tokens : List Token
  isPhrase : Bool
deriving DecidableEq, Repr

/-- Embedding of `QueryParser.parse`.  The parser is constructed with an
injected tokenizer `tok`; a `none` query models a non-string argument and an
empty string is falsy, both yielding the empty parse.  With `exact = true`
the query is not tokenized: it is trimmed, lower-cased and returned as a
single phrase term. -/
def QueryParser.parse (tok : String → List Token) (query : Option String)
    (exact : Bool) : ParseResult :=
  match query with
  | none => { terms := [], tokens := [], isPhrase := false }
  | some q =>
    if q.isEmpty then { terms := [], tokens := [], isPhrase := false }
    else if exact then
      let normalizedQuery := q.trim.toLower
      { terms := [normalizedQuery],
        tokens := [{ term := normalizedQuery, position := 0,
                     length := normalizedQuery.length }],
        isPhrase := true }
    else
      let tokens := tok q
      { terms := tokens.map (fun t => t.term), tokens := tokens,
        isPhrase := false }

/-! ### Inverted index (`indexer/inverted-index.ts`) with its two stores:
the posting-list store (`invertedIndexStore`, keyed by term) and the
document-term association store (`docTermsStore`, keyed by `[docId, term]`).
-/

/-- Posting entry (`InvertedIndexItem` of `types.ts`): term, document-id
set, and cached cardinality. -/
structure InvertedIndexItem where
  term : String
  docIds : Finset Nat
  count : Nat
deriving DecidableEq

/-- The posting-list store: an association list keyed by `term` (the
IndexedDB store has `keyPath: 'term'`, so keys are unique in any reachable
state). -/
abbrev IndexStore := List InvertedIndexItem

/-- Embedding of `invertedIndexStore.get`: the entry stored under a term,
or `none`. -/
def storeGet (s : IndexStore) (term : String) : Option InvertedIndexItem :=
  s.find? (fun it => it.term = term)

/-- Embedding of `invertedIndexStore.delete`: remove the entry stored under
a term. -/
def storeDelete (s : IndexStore) (term : String) : IndexStore :=
  s.filter (fun it => ¬ it.term = term)

/-- Embedding of `invertedIndexStore.put`: replace (or create) the entry
stored under `item.term`. -/
def storePut (s : IndexStore) (item : InvertedIndexItem) : IndexStore :=
  storeDelete s item.term ++ [item]

/-- Embedding of `invertedIndexStore.add`: create the entry (the source only
calls `add` for terms it has just found absent, where IndexedDB `add` and
`put` agree). -/
def storeAdd (s : IndexStore) (item : InvertedIndexItem) : IndexStore :=
  s ++ [item]

/-- Combined persistent state read and written by the `InvertedIndex`
component: the posting-list store and the doc-term association store. -/
structure IndexState where
  index : IndexStore
  docTerms : Finset (Nat × String)
deriving DecidableEq

/-- Embedding of `InvertedIndex.addTermToIndex`: upsert of one
term/document association into the posting-list store. -/
def addTermToIndex (term : String) (docId : Nat) (s : IndexStore) : IndexStore :=
  match storeGet s term with
  | some existingItem =>
    if docId ∈ existingItem.docIds then s
    else
      let newIds := insert docId existingItem.docIds
      storePut s { existingItem with docIds := newIds, count := newIds.card }
  | none => storeAdd s { term := term, docIds := {docId}, count := 1 }

/-- Iteration order of `new Set(tokens.map(t => t.term))`: the distinct
terms in first-occurrence order. -/
def jsSetList (l : List String) : List String :=
  l.foldl (fun acc t => if t ∈ acc then acc else acc ++ [t]) []

/-- Embedding of `InvertedIndex.indexDocument`: tokenize, de-duplicate, add
each unique term to the posting store, then record each doc-term pair.  The
source method returns `Promise<void>`, so the model returns only the updated
state and no term list. -/
def InvertedIndex.indexDocument (tok : String → List Token) (docId : Nat)
    (text : String) (st : IndexState) : IndexState :=
  let terms := jsSetList ((tok text).map (fun t => t.term))
  { index := terms.foldl (fun acc term => addTermToIndex term docId acc) st.index,
    docTerms := terms.foldl (fun acc term => insert (docId, term) acc) st.docTerms }

/-- Modelled from the spec: the de-duplicated term list that, per the spec
sentence "Returns the de-duplicated term list so the caller can cache it on
the document", `indexDocument(docId, text)` is supposed to return. -/
def specIndexDocumentTerms (tok : String → List Token) (text : String) :
    List String :=
  jsSetList ((tok text).map (fun t => t.term))

/-- Embedding of `InvertedIndex.findDocumentsByTerm`: the posting set, or
the empty set for an absent term. -/
def findDocumentsByTerm (s : IndexStore) (term : String) : Finset Nat :=
  match storeGet s term with
  | some item => item.docIds
  | none => ∅

/-- Embedding of `InvertedIndex.findDocumentsByTermsAnd`: the empty set for
an empty term list, else the left fold of intersections over the terms'
posting sets. -/
def findDocumentsByTermsAnd (s : IndexStore) (terms : List String) : Finset Nat :=
  match terms with
  | [] => ∅
  | t0 :: rest =>
    rest.foldl (fun result t => result ∩ findDocumentsByTerm s t)
      (findDocumentsByTerm s t0)

/-- Embedding of `InvertedIndex.findDocumentsByTermsOr`: the union of the
terms' posting sets (empty for an empty term list). -/
def findDocumentsByTermsOr (s : IndexStore) (terms : List String) : Finset Nat :=
  terms.foldl (fun result t => result ∪ findDocumentsByTerm s t) ∅

/-- Embedding of `InvertedIndex.removeTermFromIndex`: remove `docId` from
the posting entry of `term` if present; delete the entry when its set
becomes empty, update it otherwise; do nothing when the term is absent or
does not reference `docId`. -/
def removeTermFromIndex (term : String) (docId : Nat) (s : IndexStore) :
    IndexStore :=
  match storeGet s term with
  | some item =>
    if docId ∈ item.docIds then
      let newIds := item.docIds.erase docId
      if newIds.card = 0 then storeDelete s term
      else storePut s { item with docIds := newIds, count := newIds.card }
    else s
  | none => s

/-- Embedding of `InvertedIndex.getDocumentTerms`: the terms associated with
`docId` in the doc-term store (listed in the model's canonical order; the
result is consumed as a set). -/
def getDocumentTerms (st : IndexState) (docId : Nat) : List String :=
  ((st.docTerms.filter (fun p => p.1 = docId)).image (fun p => p.2)).sort (· ≤ ·)

/-- Embedding of `InvertedIndex.removeDocumentIndex`: remove `docId` from
the posting entry of each of its recorded terms, then delete its doc-term
rows. -/
def removeDocumentIndex (docId : Nat) (st : IndexState) : IndexState :=
  let terms := getDocumentTerms st docId
  { index := terms.foldl (fun acc term => removeTermFromIndex term docId acc) st.index,
    docTerms := st.docTerms.filter (fun p => ¬ p.1 = docId) }

/-- Embedding of `InvertedIndex.getAllTerms` (`invertedIndexStore.getAllKeys`):
the stored vocabulary.  IndexedDB returns keys in ascending key order; the
model returns them in store order, which is indistinguishable downstream
because the searcher only tests membership in sets derived from this list. -/
def getAllTerms (s : IndexStore) : List String :=
  s.map (fun it => it.term)

/-! ### Searcher (`searcher/search.ts`) -/

/-- Document record (`BaseDocument` plus its other fields).  `terms` is
`none` when the field is missing or not an array; `strFields` lists the
document's other string-valued fields in `Object.entries` order (the only
entries the phrase/highlight loops act on, since the numeric system fields
and the `terms` array fail their `typeof value === 'string'` test). -/
structure JsDoc where
  docId : Nat
  createdAt : Nat
  updatedAt : Nat
  terms : Option (List String)
  strFields : List (String × String)
deriving DecidableEq, Repr

/-- Match descriptor (`MatchInfo` of `types.ts`). -/
structure MatchInfo where
  term : String
  position : Nat
  length : Nat
  field : String
deriving DecidableEq, Repr

/-- Test whether `pat` occurs at the head of `s`. -/
def charsStartWith (s pat : List Char) : Bool :=
  match pat, s with
  | [], _ => true
  | _ :: _, [] => false
  | p :: ps, c :: cs => c = p ∧ charsStartWith cs ps

/-- Occurrence positions found by the `indexOf` loop of `findMatches`:
scan left to right, and after a hit at `i` resume at `i + pat.length`
(non-overlapping).  The loop is reached only with a non-empty query, for
which the empty-pattern case is unreachable. -/
def occurrencesFrom (pat : List Char) (s : List Char) (pos : Nat) : List Nat :=
  if pat.isEmpty then []
  else
    match s with
    | [] => []
    | c :: rest =>
      if charsStartWith (c :: rest) pat then
        pos :: occurrencesFrom pat ((c :: rest).drop pat.length) (pos + pat.length)
      else occurrencesFrom pat rest (pos + 1)
termination_by s.length
decreasing_by
  · rename_i hne _
    simp only [List.length_drop, List.length_cons]
    simp only [List.isEmpty_iff] at hne
    have : 1 ≤ pat.length := by
      cases pat with
      | nil => exact absurd rfl hne
      | cons a l => simp
    omega
  · simp

/-- Test of JS substring containment `text.includes(pat)` on char lists. -/
def charsContain (s pat : List Char) : Bool :=
  ¬ (occurrencesFrom pat s 0).isEmpty

/-- Embedding of `Searcher.findMatches`: for every non-empty string field,
the case-insensitive occurrences of the raw query, as `MatchInfo` records. -/
def findMatches (doc : JsDoc) (query : String) : List MatchInfo :=
  (doc.strFields.map (fun fv =>
    if fv.2.isEmpty then []
    else
      (occurrencesFrom query.toLower.data fv.2.toLower.data 0).map
        (fun i => { term := query, position := i, length := query.length,
                    field := fv.1 : MatchInfo }))).flatten

/-- Logical operator option (`'AND' | 'OR'`). -/
inductive Operator where
  | AND
  | OR
deriving DecidableEq, Repr

/-- Sort-key option of the cursor search (`docId` primary key, or the
`createdAt`/`updatedAt` secondary indexes). -/
inductive SortBy where
  | byDocId
  | byCreatedAt
  | byUpdatedAt
deriving DecidableEq, Repr

/-- Iteration direction option (`'asc' | 'desc'`). -/
inductive Order where
  | asc
  | desc
deriving DecidableEq, Repr

/-- Options of `searchWithCursor` (`SearchWithCursorOptions`), with the
source's defaults. -/
structure SearchCursorOptions where
  sortBy : SortBy := SortBy.byDocId
  order : Order := Order.asc
  operator : Operator := Operator.AND
  limit : Nat := 20
  lastKey : Option Nat := none
  highlight : Bool := false
  fuzzy : Bool := false
  exact : Bool := false
deriving DecidableEq, Repr

/-- Result item of the cursor search (`SearchResultItem`): the document and,
when highlighting was requested, its match positions (the source's optional
`matches` field, renamed `matchInfos` because `matches` is reserved in
Lean). -/
structure SearchResultItem where
  docId : Nat
  doc : JsDoc
  matchInfos : Option (List MatchInfo)
deriving DecidableEq, Repr

/-- Response of `searchWithCursor`: one page of items plus the optional
resumption key. -/
structure CursorResult where
  items : List SearchResultItem
  nextKey : Option Nat
deriving DecidableEq, Repr

/-- Truthiness of the `phraseLower` string (`null` and the empty string are
falsy). -/
def truthyStr : Option String → Bool
  | none => false
  | some s => ¬ s.isEmpty

/-- Embedding of `Searcher.checkDocumentMatch`: phrase queries test
substring containment over the string fields; fuzzy queries test the
similar-term sets against the cached `terms`; exact boolean queries test
the query terms — restricted to the "full words" of length ≥ 2 when any
exist — against the cached `terms`; a document without a usable `terms`
array matches nothing on the non-phrase paths. -/
def checkDocumentMatch (doc : JsDoc) (terms : List String) (isPhrase : Bool)
    (phraseLower : Option String) (fuzzy : Bool)
    (similarTermSets : Option (List (List String))) (operator : Operator) :
    Bool :=
  if isPhrase ∧ truthyStr phraseLower then
    let p := (phraseLower.getD "").data
    doc.strFields.any (fun fv => ¬ fv.2.isEmpty ∧ charsContain fv.2.toLower.data p)
  else if h : fuzzy ∧ similarTermSets.isSome then
    match doc.terms with
    | none => false
    | some docTerms =>
      let sets := similarTermSets.get (by exact h.2)
      match operator with
      | Operator.AND =>
        sets.all (fun similarTerms => similarTerms.any (fun t => t ∈ docTerms))
      | Operator.OR =>
        sets.any (fun similarTerms => similarTerms.any (fun t => t ∈ docTerms))
  else
    match doc.terms with
    | none => false
    | some docTerms =>
      let fullWords := terms.filter (fun term => 2 ≤ term.length)
      let termsToCheck := if ¬ fullWords.isEmpty then fullWords else terms
      match operator with
      | Operator.AND => termsToCheck.all (fun term => term ∈ docTerms)
      | Operator.OR => termsToCheck.any (fun term => term ∈ docTerms)

/-- Sort key read by the cursor for a document under the chosen index. -/
def keyOf : SortBy → JsDoc → Nat
  | SortBy.byDocId, d => d.docId
  | SortBy.byCreatedAt, d => d.createdAt
  | SortBy.byUpdatedAt, d => d.updatedAt

/-- Key-range test applied when a `lastKey` cursor is present: strictly
after it (ascending) or strictly before it (descending), both bounds
exclusive as in the source's `IDBKeyRange.lowerBound/upperBound(lastKey,
true)`. -/
def inKeyRange (sortBy : SortBy) (order : Order) (lastKey : Option Nat)
    (d : JsDoc) : Bool :=
  match lastKey with
  | none => true
  | some lk =>
    match order with
    | Order.asc => lk < keyOf sortBy d
    | Order.desc => keyOf sortBy d < lk

/-- Documents the cursor visits, in visiting order: the store is iterated in
ascending key order (`'next'`) or descending key order (`'prev'`,
modelled by reversing the ascending stream), restricted by the key range. -/
def visibleDocs (sortBy : SortBy) (order : Order) (lastKey : Option Nat)
    (docs : List JsDoc) : List JsDoc :=
  let ranged := docs.filter (inKeyRange sortBy order lastKey)
  match order with
  | Order.asc => ranged
  | Order.desc => ranged.reverse

/-- Cursor loop of `searchWithCursor`: visit each document in order,
append an item and remember the key for every match, and stop with the
remembered key once `limit` items are collected; an exhausted cursor
resolves with no `nextKey`. -/
def cursorLoop (key : JsDoc → Nat) (pred : JsDoc → Bool)
    (mkItem : JsDoc → SearchResultItem) (limit : Nat) :
    List JsDoc → List SearchResultItem → Option Nat → CursorResult
  | [], items, _ => { items := items, nextKey := none }
  | d :: rest, items, lastMatchedKey =>
    let newItems := if pred d then items ++ [mkItem d] else items
    let newLast := if pred d then some (key d) else lastMatchedKey
    if limit ≤ newItems.length then { items := newItems, nextKey := newLast }
    else cursorLoop key pred mkItem limit rest newItems newLast

/-- Match predicate evaluated by `searchWithCursor` against each visited
document: the parsed terms, the phrase string and the fuzzy similar-term
sets are computed once from the query and the posting store, then handed
to `checkDocumentMatch`. -/
def predOf (tok : String → List Token) (idx : IndexStore) (q : String)
    (options : SearchCursorOptions) : JsDoc → Bool :=
  let pr := QueryParser.parse tok (some q) options.exact
  let similarTermSets : Option (List (List String)) :=
    if options.fuzzy then
      some (pr.terms.map (fun term =>
        (findSimilarTerms term (getAllTerms idx) 0.6).map (fun s => s.1)
          ++ [term]))
    else none
  let phraseLower : Option String :=
    if pr.isPhrase then some q.toLower.trim else none
  fun d =>
    checkDocumentMatch d pr.terms pr.isPhrase phraseLower options.fuzzy
      similarTermSets options.operator

/-- Result item built by `searchWithCursor` for a matching document. -/
def mkItemOf (q : String) (options : SearchCursorOptions) :
    JsDoc → SearchResultItem :=
  fun d =>
    { docId := d.docId, doc := d,
      matchInfos := if options.highlight then some (findMatches d q) else none }

/-- Embedding of `Searcher.searchWithCursor`.  State read by the method:
the posting-list store `idx` (for the fuzzy vocabulary scan) and the
document store `docs`, listed in ascending order of the chosen sort key.
A `none` query models a non-string argument. -/
def searchWithCursor (tok : String → List Token) (idx : IndexStore)
    (docs : List JsDoc) (query : Option String)
    (options : SearchCursorOptions) : CursorResult :=
  match query with
  | none => { items := [], nextKey := none }
  | some q =>
    if q.isEmpty then { items := [], nextKey := none }
    else
      if (QueryParser.parse tok (some q) options.exact).terms.isEmpty then
        { items := [], nextKey := none }
      else
        cursorLoop (keyOf options.sortBy) (predOf tok idx q options)
          (mkItemOf q options) options.limit
          (visibleDocs options.sortBy options.order options.lastKey docs) [] none

/-! ### Sorter (`searcher/sorter.ts`, legacy non-cursor path) -/

/-- Field value seen by the sorter: `vNull` models both `null` and
`undefined` (the source tests `value == null`), and the other constructors
model the number, `Date` and string cases its `compareValues` dispatches
on.  JS numbers used as sort values are modelled as integers. -/
inductive JsValue where
  | vNull
  | vNum (n : Int)
  | vDate (t : Int)
  | vStr (s : String)
deriving DecidableEq, Repr

/-- JS `String(value)` conversion reached by the string branch of
`compareValues` (never called on `null`).  The `Date` rendering is an
opaque stand-in for the engine-dependent `Date.prototype.toString`. -/
def jsValueToString : JsValue → String
  | JsValue.vNull => "null"
  | JsValue.vNum n => toString n
  | JsValue.vDate t => "Date " ++ toString t
  | JsValue.vStr s => s

/-- Model of `String.prototype.localeCompare`: the sign of the lexicographic
codepoint comparison (locale-aware collation is environment-dependent;
the claims only use that it is a linear string comparison). -/
def strCompare (x y : String) : Int :=
  match compare x y with
  | Ordering.lt => -1
  | Ordering.eq => 0
  | Ordering.gt => 1

/-- Embedding of `Sorter.compareValues`: nulls compare last, numbers
numerically, dates by timestamp, everything else as strings via
`localeCompare`. -/
def compareValues : JsValue → JsValue → Int
  | JsValue.vNull, JsValue.vNull => 0
  | JsValue.vNull, _ => 1
  | _, JsValue.vNull => -1
  | JsValue.vNum x, JsValue.vNum y => x - y
  | JsValue.vDate x, JsValue.vDate y => x - y
  | a, b => strCompare (jsValueToString a) (jsValueToString b)

/-- Sort specification entry (`SortField` of `types.ts`). -/
structure SortField where
  field : String
  order : Order
deriving DecidableEq, Repr

/-- Multi-key comparator built by the closure inside `Sorter.sort`: compare
under each sort field in turn, negating for descending fields, and fall
through to the next field on ties.  `getVal` models the resolved
field-value projection (`getDocFields` plus `getFieldValue`). -/
def compareDocIds (getVal : Nat → String → JsValue) :
    List SortField → Nat → Nat → Int
  | [], _, _ => 0
  | sf :: rest, a, b =>
    let comparison := compareValues (getVal a sf.field) (getVal b sf.field)
    if comparison ≠ 0 then
      if sf.order = Order.asc then comparison else -comparison
    else compareDocIds getVal rest a b

/-- Embedding of `Sorter.sort`: stable sort of the id list by the multi-key
comparator (JS `Array.prototype.sort` is stable; `List.mergeSort` models
it). -/
def Sorter.sort (getVal : Nat → String → JsValue) (docIds : List Nat)
    (sortBy : List SortField) : List Nat :=
  docIds.mergeSort (fun a b => decide (compareDocIds getVal sortBy a b ≤ 0))

/-- Mutation requests accepted by the inverted index: index a document's
text, or remove a document's index footprint. -/
inductive IndexOp where
  | indexDoc (docId : Nat) (text : String)
  | removeDoc (docId : Nat)

/-- Application of one inverted-index mutation to the stores. -/
def applyOp (tok : String → List Token) (st : IndexState) : IndexOp → IndexState
  | IndexOp.indexDoc docId text => InvertedIndex.indexDocument tok docId text st
  | IndexOp.removeDoc docId => removeDocumentIndex docId st

/-- Application of a sequence of inverted-index mutations. -/
def applyOps (tok : String → List Token) (ops : List IndexOp)
    (st : IndexState) : IndexState :=
  ops.foldl (applyOp tok) st

/-- Posting-store invariant of the spec: every persisted entry has
`count = |docIds|` and a non-empty document set. -/
def WellFormedStore (s : IndexStore) : Prop :=
  ∀ it ∈ s, it.count = it.docIds.card ∧ it.docIds.Nonempty

/-- Key-uniqueness of the posting store (IndexedDB enforces it through the
`term` key path). -/
def UniqueTerms (s : IndexStore) : Prop :=
  s.Pairwise (fun a b => a.term ≠ b.term)

/-- Coherence of the doc-term store with the posting store for one
document: every posting membership of `docId` is recorded as a doc-term
row.  Reachable states satisfy this because `indexDocument` writes both
stores for the same term set and `removeDocumentIndex` clears both. -/
def CoherentFor (docId : Nat) (st : IndexState) : Prop :=
  ∀ it ∈ st.index, docId ∈ it.docIds → (docId, it.term) ∈ st.docTerms

/-- Field projection used to exhibit the sorter's null ordering: document 2
carries the numeric value 5 in field `a`; document 1 has no value there
(`null`). -/
def gvC6 : Nat → String → JsValue :=
  fun i f => if f = "a" ∧ i = 2 then JsValue.vNum 5 else JsValue.vNull

/-- Strict key ordering of the cursor's visiting direction: the next key
is larger for an ascending scan and smaller for a descending one. -/
def ordStep (order : Order) (k x : Nat) : Bool :=
  match order with
  | Order.asc => k < x
  | Order.desc => x < k

/-- Repeated cursor search with a fixed option set, feeding each page's
`nextKey` back as the next call's `lastKey`, concatenating the pages
(`fuel` bounds the number of pages). -/
def chainedSearch (tok : String → List Token) (idx : IndexStore)
    (docs : List JsDoc) (query : Option String)
    (options : SearchCursorOptions) : Nat → Option Nat → List SearchResultItem
  | 0, _ => []
  | fuel + 1, lk =>
    let r := searchWithCursor tok idx docs query { options with lastKey := lk }
    match r.nextKey with
    | none => r.items
    | some k => r.items ++ chainedSearch tok idx docs query options fuel (some k)

/-- Fixed tokenizer used to evaluate the index-document claim at concrete
inputs (the `InvertedIndex` constructor takes the tokenizer as a
dependency). -/
def tokC1 : String → List Token :=
  fun text =>
    if text = "hello world" then [⟨"hello", 0, 5⟩, ⟨"world", 6, 5⟩]
    else if text = "hello hello" then [⟨"hello", 0, 5⟩, ⟨"hello", 6, 5⟩]
    else []

/-! ### Theorems -/

theorem mem_foldl_inter (f : String → Finset Nat) (d : Nat) (l : List String)
    (init : Finset Nat) :
    d ∈ l.foldl (fun r t => r ∩ f t) init ↔ d ∈ init ∧ ∀ t ∈ l, d ∈ f t := by
  induction l generalizing init with
  | nil => simp
  | cons t tl ih =>
    simp only [List.foldl_cons, ih, Finset.mem_inter, List.forall_mem_cons]
    tauto

theorem mem_foldl_union (f : String → Finset Nat) (d : Nat) (l : List String)
    (init : Finset Nat) :
    d ∈ l.foldl (fun r t => r ∪ f t) init ↔ d ∈ init ∨ ∃ t ∈ l, d ∈ f t := by
  induction l generalizing init with
  | nil => simp
  | cons t tl ih =>
    simp only [List.foldl_cons, ih, Finset.mem_union, List.exists_mem_cons_iff]
    tauto

/-- C7: `findDocumentsByTermsAnd` returns exactly the intersection of the
terms' posting sets and `findDocumentsByTermsOr` exactly their union; for
both, an empty term list yields the empty set (AND over no terms does not
match everything), and a single absent term yields the empty set rather
than an error. -/
theorem findDocumentsByTerms_and_or_spec (s : IndexStore) (terms : List String)
    (d : Nat) :
    (d ∈ findDocumentsByTermsAnd s terms ↔
      terms ≠ [] ∧ ∀ t ∈ terms, d ∈ findDocumentsByTerm s t)
    ∧ (d ∈ findDocumentsByTermsOr s terms ↔
      ∃ t ∈ terms, d ∈ findDocumentsByTerm s t)
    ∧ findDocumentsByTermsAnd s [] = ∅
    ∧ findDocumentsByTermsOr s [] = ∅
    ∧ (∀ t, storeGet s t = none →
        findDocumentsByTermsAnd s [t] = ∅ ∧ findDocumentsByTermsOr s [t] = ∅) := by
  refine ⟨?_, ?_, rfl, rfl, ?_⟩
  · cases terms with
    | nil => simp [findDocumentsByTermsAnd]
    | cons t0 rest =>
      simp only [findDocumentsByTermsAnd, mem_foldl_inter, List.forall_mem_cons,
        ne_eq, reduceCtorEq, not_false_iff, true_and]
  · simp only [findDocumentsByTermsOr, mem_foldl_union, Finset.not_mem_empty,
      false_or]
  · intro t ht
    constructor
    · simp [findDocumentsByTermsAnd, findDocumentsByTerm, ht]
    · simp [findDocumentsByTermsOr, findDocumentsByTerm, ht]

/-- Witness for C7 at a concrete store and query. -/
theorem findDocumentsByTerms_and_or_spec_witness :
    (2 ∈ findDocumentsByTermsAnd
        [⟨"a", {1, 2}, 2⟩, ⟨"b", {2}, 1⟩] ["a", "b"] ↔
      (["a", "b"] : List String) ≠ [] ∧
        ∀ t ∈ ["a", "b"],
          2 ∈ findDocumentsByTerm [⟨"a", {1, 2}, 2⟩, ⟨"b", {2}, 1⟩] t)
    ∧ (2 ∈ findDocumentsByTermsOr [⟨"a", {1, 2}, 2⟩, ⟨"b", {2}, 1⟩] ["a", "b"] ↔
      ∃ t ∈ ["a", "b"], 2 ∈ findDocumentsByTerm [⟨"a", {1, 2}, 2⟩, ⟨"b", {2}, 1⟩] t)
    ∧ findDocumentsByTermsAnd [⟨"a", {1, 2}, 2⟩, ⟨"b", {2}, 1⟩] [] = ∅
    ∧ findDocumentsByTermsOr [⟨"a", {1, 2}, 2⟩, ⟨"b", {2}, 1⟩] [] = ∅
    ∧ (∀ t, storeGet [⟨"a", {1, 2}, 2⟩, ⟨"b", {2}, 1⟩] t = none →
        findDocumentsByTermsAnd [⟨"a", {1, 2}, 2⟩, ⟨"b", {2}, 1⟩] [t] = ∅
        ∧ findDocumentsByTermsOr [⟨"a", {1, 2}, 2⟩, ⟨"b", {2}, 1⟩] [t] = ∅) :=
  findDocumentsByTerms_and_or_spec [⟨"a", {1, 2}, 2⟩, ⟨"b", {2}, 1⟩] ["a", "b"] 2

/-- C8: for a non-phrase, non-fuzzy query, the boolean AND/OR decision over
the document's cached terms uses only the query terms of length at least 2
when any such full word exists — appending single-character tokens to the
query terms does not change the decision — and falls back to all terms when
the query consists solely of single characters. -/
theorem checkDocumentMatch_exact_full_words (doc : JsDoc) (terms : List String)
    (phraseLower : Option String) (op : Operator) (docTerms : List String)
    (hdt : doc.terms = some docTerms) :
    (checkDocumentMatch doc terms false phraseLower false none op =
      ((if ¬ (terms.filter (fun t => 2 ≤ t.length)).isEmpty then
          terms.filter (fun t => 2 ≤ t.length)
        else terms).all (fun t => t ∈ docTerms)
        |> fun allRes =>
          match op with
          | Operator.AND => allRes
          | Operator.OR =>
            (if ¬ (terms.filter (fun t => 2 ≤ t.length)).isEmpty then
                terms.filter (fun t => 2 ≤ t.length)
              else terms).any (fun t => t ∈ docTerms)))
    ∧ (¬ (terms.filter (fun t => 2 ≤ t.length)).isEmpty →
        ∀ singles : List String, (∀ t ∈ singles, t.length < 2) →
          checkDocumentMatch doc (terms ++ singles) false phraseLower false none op =
          checkDocumentMatch doc terms false phraseLower false none op) := by
  have hsingles : ∀ (singles : List String), (∀ t ∈ singles, t.length < 2) →
      singles.filter (fun t => 2 ≤ t.length) = [] := by
    intro singles hs
    rw [List.filter_eq_nil_iff]
    intro t ht
    have := hs t ht
    simp only [decide_eq_true_eq]
    omega
  constructor
  · simp only [checkDocumentMatch, false_and, if_false, Option.isSome_none,
      and_false, dite_false, hdt]
    cases op <;> simp
  · intro hfw singles hs
    simp only [checkDocumentMatch, false_and, if_false, Option.isSome_none,
      and_false, dite_false, hdt]
    have hfilter : (terms ++ singles).filter (fun t => 2 ≤ t.length) =
        terms.filter (fun t => 2 ≤ t.length) := by
      rw [List.filter_append, hsingles singles hs, List.append_nil]
    rw [hfilter]
    cases op <;> simp [hfw]

/-- Witness for C8 at a concrete document and query. -/
theorem checkDocumentMatch_exact_full_words_witness :
    (checkDocumentMatch ⟨1, 0, 0, some ["hello", "world"], []⟩ ["hello", "a"]
        false none false none Operator.AND =
      ((if ¬ ((["hello", "a"] : List String).filter (fun t => 2 ≤ t.length)).isEmpty then
          (["hello", "a"] : List String).filter (fun t => 2 ≤ t.length)
        else ["hello", "a"]).all (fun t => t ∈ ["hello", "world"])
        |> fun allRes =>
          match Operator.AND with
          | Operator.AND => allRes
          | Operator.OR =>
            (if ¬ ((["hello", "a"] : List String).filter (fun t => 2 ≤ t.length)).isEmpty then
                (["hello", "a"] : List String).filter (fun t => 2 ≤ t.length)
              else ["hello", "a"]).any (fun t => t ∈ ["hello", "world"])))
    ∧ (¬ ((["hello", "a"] : List String).filter (fun t => 2 ≤ t.length)).isEmpty →
        ∀ singles : List String, (∀ t ∈ singles, t.length < 2) →
          checkDocumentMatch ⟨1, 0, 0, some ["hello", "world"], []⟩
            (["hello", "a"] ++ singles) false none false none Operator.AND =
          checkDocumentMatch ⟨1, 0, 0, some ["hello", "world"], []⟩ ["hello", "a"]
            false none false none Operator.AND) :=
  checkDocumentMatch_exact_full_words ⟨1, 0, 0, some ["hello", "world"], []⟩
    ["hello", "a"] none Operator.AND ["hello", "world"] rfl

theorem cursorLoop_items_mem (key : JsDoc → Nat) (pred : JsDoc → Bool)
    (mkItem : JsDoc → SearchResultItem) (limit : Nat) (l : List JsDoc)
    (items : List SearchResultItem) (lm : Option Nat) (it : SearchResultItem)
    (hmem : it ∈ (cursorLoop key pred mkItem limit l items lm).items) :
    it ∈ items ∨ ∃ d ∈ l, pred d = true ∧ it = mkItem d := by
  induction l generalizing items lm with
  | nil =>
    simp only [cursorLoop] at hmem
    exact Or.inl hmem
  | cons d rest ih =>
    rw [cursorLoop] at hmem
    cases hpd : pred d with
    | true =>
      simp only [hpd, if_true] at hmem
      split at hmem
      · rcases List.mem_append.mp hmem with h | h
        · exact Or.inl h
        · exact Or.inr ⟨d, List.mem_cons_self d rest, hpd, (List.mem_singleton.mp h)⟩
      · rcases ih _ _ hmem with h | ⟨d2, hd2, hp2, he2⟩
        · rcases List.mem_append.mp h with h | h
          · exact Or.inl h
          · exact Or.inr ⟨d, List.mem_cons_self d rest, hpd, (List.mem_singleton.mp h)⟩
        · exact Or.inr ⟨d2, List.mem_cons_of_mem d hd2, hp2, he2⟩
    | false =>
      simp only [hpd, Bool.false_eq_true, if_false] at hmem
      split at hmem
      · exact Or.inl hmem
      · rcases ih _ _ hmem with h | ⟨d2, hd2, hp2, he2⟩
        · exact Or.inl h
        · exact Or.inr ⟨d2, List.mem_cons_of_mem d hd2, hp2, he2⟩

/-- C10: under cursor search with a non-phrase query (exact boolean or
fuzzy), a document whose `terms` field is missing or not an array never
matches — the match predicate is false on it for every operator and every
similar-term preprocessing — and consequently such a document is never
among the items returned for a non-`exact` query. -/
theorem checkDocumentMatch_no_terms_never_matches (doc : JsDoc)
    (terms : List String) (phraseLower : Option String) (fuzzy : Bool)
    (similarTermSets : Option (List (List String))) (op : Operator)
    (hterms : doc.terms = none) :
    checkDocumentMatch doc terms false phraseLower fuzzy similarTermSets op = false
    ∧ ∀ (tok : String → List Token) (idx : IndexStore) (docs : List JsDoc)
        (q : Option String) (options : SearchCursorOptions),
        options.exact = false →
        ∀ it ∈ (searchWithCursor tok idx docs q options).items, it.doc.terms ≠ none := by
  have hmain : ∀ (terms2 : List String) (pl : Option String) (fz : Bool)
      (sts : Option (List (List String))) (op2 : Operator) (doc2 : JsDoc),
      doc2.terms = none →
      checkDocumentMatch doc2 terms2 false pl fz sts op2 = false := by
    intro terms2 pl fz sts op2 doc2 ht
    simp only [checkDocumentMatch, Bool.false_eq_true, false_and, if_false, ht]
    split <;> rfl
  refine ⟨hmain terms phraseLower fuzzy similarTermSets op doc hterms, ?_⟩
  intro tok idx docs q options hexact it hit
  cases q with
  | none => simp [searchWithCursor] at hit
  | some qs =>
    simp only [searchWithCursor] at hit
    by_cases hq : qs.isEmpty
    · simp [hq] at hit
    · simp only [hq, if_false] at hit
      by_cases hterms0 : (QueryParser.parse tok (some qs) options.exact).terms.isEmpty
      · simp [hterms0] at hit
      · simp only [hterms0, if_false] at hit
        rcases cursorLoop_items_mem _ _ _ _ _ _ _ _ hit with h | ⟨d, _, hpred, hd⟩
        · simp at h
        · intro hnone
          have hph : (QueryParser.parse tok (some qs) options.exact).isPhrase = false := by
            rw [hexact]
            simp [QueryParser.parse, hq]
          unfold predOf at hpred
          simp only [hph] at hpred
          have hdt : d.terms = none := by
            rw [hd] at hnone
            exact hnone
          rw [hmain _ _ _ _ _ d hdt] at hpred
          exact Bool.false_ne_true hpred

/-- Witness for C10 at a concrete document, query and store. -/
theorem checkDocumentMatch_no_terms_never_matches_witness :
    checkDocumentMatch ⟨7, 0, 0, none, [("title", "hello world")]⟩ ["hello"]
        false none false none Operator.OR = false
    ∧ ∀ (tok : String → List Token) (idx : IndexStore) (docs : List JsDoc)
        (q : Option String) (options : SearchCursorOptions),
        options.exact = false →
        ∀ it ∈ (searchWithCursor tok idx docs q options).items,
          it.doc.terms ≠ none :=
  checkDocumentMatch_no_terms_never_matches
    ⟨7, 0, 0, none, [("title", "hello world")]⟩ ["hello"] none false none
    Operator.OR rfl

/-- C9: no error is raised anywhere on the query path for empty or
non-string input: the tokenizer returns the empty token sequence, query
parsing returns the empty term list with `isPhrase = false`, and the cursor
search entry point returns the empty result; a query that parses to zero
terms likewise yields the empty result. -/
theorem query_path_empty_input_safe :
    (∀ inp : Option String, inp = none ∨ inp = some "" →
      mixedTokenize inp = []
      ∧ (∀ (tok : String → List Token) (exact : Bool),
          QueryParser.parse tok inp exact =
            { terms := [], tokens := [], isPhrase := false })
      ∧ (∀ (tok : String → List Token) (idx : IndexStore) (docs : List JsDoc)
          (options : SearchCursorOptions),
          searchWithCursor tok idx docs inp options =
            { items := [], nextKey := none }))
    ∧ (∀ (tok : String → List Token) (idx : IndexStore) (docs : List JsDoc)
        (q : String) (options : SearchCursorOptions),
        (QueryParser.parse tok (some q) options.exact).terms = [] →
        searchWithCursor tok idx docs (some q) options =
          { items := [], nextKey := none }) := by
  constructor
  · intro inp hinp
    rcases hinp with h | h <;> subst h
    · exact ⟨rfl, fun _ _ => rfl, fun _ _ _ _ => rfl⟩
    · exact ⟨rfl, fun _ _ => rfl, fun _ _ _ _ => rfl⟩
  · intro tok idx docs q options hp
    by_cases hq : q.isEmpty
    · simp [searchWithCursor, hq]
    · simp [searchWithCursor, hq, hp]

/-- Witness for C9: the empty-string input, and a tokenizer/query pair that
parses to zero terms, both yield empty results at concrete inputs. -/
theorem query_path_empty_input_safe_witness :
    (mixedTokenize (some "") = []
      ∧ (∀ (tok : String → List Token) (exact : Bool),
          QueryParser.parse tok (some "") exact =
            { terms := [], tokens := [], isPhrase := false })
      ∧ (∀ (tok : String → List Token) (idx : IndexStore) (docs : List JsDoc)
          (options : SearchCursorOptions),
          searchWithCursor tok idx docs (some "") options =
            { items := [], nextKey := none }))
    ∧ (QueryParser.parse (fun _ => []) (some "???") false).terms = []
    ∧ searchWithCursor (fun _ => []) [] [⟨1, 1, 1, some ["a"], []⟩]
        (some "???") { exact := false } = { items := [], nextKey := none } := by
  refine ⟨query_path_empty_input_safe.1 (some "") (Or.inr rfl), rfl, ?_⟩
  exact query_path_empty_input_safe.2 (fun _ => []) [] [⟨1, 1, 1, some ["a"], []⟩]
    "???" { exact := false } rfl

theorem foldl_preserve {α β : Type} (f : β → α → β) (P : β → Prop)
    (hstep : ∀ b a, P b → P (f b a)) :
    ∀ (l : List α) (b : β), P b → P (l.foldl f b) := by
  intro l
  induction l with
  | nil => intro b h; exact h
  | cons a tl ih =>
    intro b h
    exact ih (f b a) (hstep b a h)

theorem countOf_bumpCount (acc : List (String × Nat)) (x c : String) :
    countOf (bumpCount acc x) c = countOf acc c + (if x = c then 1 else 0) := by
  induction acc with
  | nil =>
    by_cases h : x = c <;> simp [bumpCount, countOf, h]
  | cons p tl ih =>
    by_cases hpx : p.1 = x
    · by_cases hpc : p.1 = c
      · have hxc : x = c := by rw [← hpx, hpc]
        simp [bumpCount, countOf, hpx, hpc, hxc]
      · have hxc : ¬ x = c := by rw [← hpx]; exact hpc
        simp [bumpCount, countOf, hpx, hpc, hxc]
    · by_cases hpc : p.1 = c
      · have hxc : ¬ x = c := by
          intro hx
          exact hpx (by rw [hpc, hx])
        have hcx : ¬ c = x := fun h => hxc h.symm
        simp [bumpCount, countOf, hpx, hpc, hxc, hcx]
      · simp [bumpCount, countOf, hpx, hpc, ih]

theorem countOf_foldl_bumpCount (L : List String) (acc : List (String × Nat))
    (c : String) :
    countOf (L.foldl bumpCount acc) c = countOf acc c + L.count c := by
  induction L generalizing acc with
  | nil => simp
  | cons x tl ih =>
    simp only [List.foldl_cons, ih, countOf_bumpCount, List.count_cons]
    by_cases h : x = c
    · subst h
      simp
      omega
    · have h2 : ¬ (c == x) = true := by
        simp only [beq_iff_eq]
        intro hc
        exact h hc.symm
      simp [h, h2]

theorem bumpCount_keys (acc : List (String × Nat)) (x : String) :
    (bumpCount acc x).map Prod.fst =
      if x ∈ acc.map Prod.fst then acc.map Prod.fst
      else acc.map Prod.fst ++ [x] := by
  induction acc with
  | nil => simp [bumpCount]
  | cons p tl ih =>
    by_cases hpx : p.1 = x
    · simp [bumpCount, hpx]
    · have hxp : ¬ x = p.1 := fun h => hpx h.symm
      simp only [bumpCount, hpx, if_false, List.map_cons, ih, List.mem_cons, hxp,
        false_or]
      by_cases hm : x ∈ tl.map Prod.fst <;> simp [hm]

theorem bumpCount_keys_nodup (acc : List (String × Nat)) (x : String)
    (h : (acc.map Prod.fst).Nodup) : ((bumpCount acc x).map Prod.fst).Nodup := by
  rw [bumpCount_keys]
  by_cases hm : x ∈ acc.map Prod.fst
  · simpa [hm] using h
  · simp only [hm, if_false]
    rw [List.nodup_append]
    exact ⟨h, List.nodup_singleton x, by simpa using hm⟩

theorem countOf_eq_of_mem_nodup (counts : List (String × Nat))
    (p : String × Nat) (hnd : (counts.map Prod.fst).Nodup) (hp : p ∈ counts) :
    countOf counts p.1 = p.2 := by
  induction counts with
  | nil => simp at hp
  | cons q tl ih =>
    simp only [List.map_cons, List.nodup_cons] at hnd
    rcases List.mem_cons.mp hp with h | h
    · subst h
      simp [countOf]
    · have hq : ¬ q.1 = p.1 := by
        intro hc
        exact hnd.1 (hc ▸ List.mem_map.mpr ⟨p, h, rfl⟩)
      simp only [countOf, hq, if_false]
      exact ih hnd.2 h

theorem tallyCounts_keys_nodup (m : List (String × Finset String))
    (grams : List String) : ((tallyCounts m grams).map Prod.fst).Nodup := by
  refine foldl_preserve (tallyStep m) (fun acc => (acc.map Prod.fst).Nodup)
    ?_ grams [] (by simp)
  intro acc g h
  unfold tallyStep
  cases gramMapGet m g with
  | none => exact h
  | some cands =>
    exact foldl_preserve bumpCount _ (fun b a => bumpCount_keys_nodup b a) _ acc h

theorem countOf_tallyStep (m : List (String × Finset String))
    (acc : List (String × Nat)) (g c : String) :
    countOf (tallyStep m acc g) c =
      countOf acc c + (if c ∈ gramSetOf m g then 1 else 0) := by
  unfold tallyStep
  cases hg : gramMapGet m g with
  | none =>
    have : ¬ c ∈ gramSetOf m g := by simp [gramSetOf, hg]
    simp [this]
  | some cands =>
    have hset : gramSetOf m g = cands := by simp [gramSetOf, hg]
    rw [countOf_foldl_bumpCount, hset]
    by_cases hc : c ∈ cands
    · rw [List.count_eq_one_of_mem (cands.sort_nodup _) ((Finset.mem_sort _).mpr hc)]
      simp [hc]
    · rw [List.count_eq_zero_of_not_mem (fun hm => hc ((Finset.mem_sort _).mp hm))]
      simp [hc]

theorem countOf_tallyCounts (m : List (String × Finset String))
    (grams : List String) (c : String) :
    countOf (tallyCounts m grams) c =
      (grams.filter (fun g => c ∈ gramSetOf m g)).length := by
  have hmain : ∀ (gs : List String) (acc : List (String × Nat)),
      countOf (gs.foldl (tallyStep m) acc) c =
        countOf acc c + (gs.filter (fun g => c ∈ gramSetOf m g)).length := by
    intro gs
    induction gs with
    | nil => intro acc; simp
    | cons g tl ih =>
      intro acc
      simp only [List.foldl_cons, ih, countOf_tallyStep, List.filter_cons]
      by_cases hm : c ∈ gramSetOf m g
      · simp [hm]
        omega
      · simp [hm]
  have := hmain grams []
  simpa [countOf] using this

theorem mem_foldl_insert_filter (counts : List (String × Nat)) (amm : Nat)
    (c : String) (init : Finset String) :
    (c ∈ counts.foldl
        (fun result p => if amm ≤ p.2 then insert p.1 result else result) init) ↔
      c ∈ init ∨ ∃ p ∈ counts, p.1 = c ∧ amm ≤ p.2 := by
  induction counts generalizing init with
  | nil => simp
  | cons p tl ih =>
    simp only [List.foldl_cons, ih, List.exists_mem_cons_iff]
    by_cases h : amm ≤ p.2
    · simp only [h, if_true, Finset.mem_insert]
      tauto
    · simp only [h, if_false]
      tauto

theorem countOf_pos_find (counts : List (String × Nat)) (c : String)
    (h : 1 ≤ countOf counts c) : ∃ p ∈ counts, p.1 = c ∧ p.2 = countOf counts c := by
  induction counts with
  | nil => simp [countOf] at h
  | cons q tl ih =>
    by_cases hq : q.1 = c
    · exact ⟨q, List.mem_cons_self q tl, hq, by simp [countOf, hq]⟩
    · simp only [countOf, hq, if_false] at h ⊢
      rcases ih h with ⟨p, hp, hp1, hp2⟩
      exact ⟨p, List.mem_cons_of_mem q hp, hp1, hp2⟩

/-- C5: with no explicit `minMatches`, `findCandidatesByNGram` keeps a
candidate exactly when the number of occurrences, in the target's combined
2-gram and 3-gram list, of grams whose recorded candidate set contains it
reaches the adaptive minimum: 1 for target length at most 4, 2 for length
5 to 7, 3 for longer targets. -/
theorem findCandidatesByNGram_adaptive (targetTerm : String)
    (termNGramMap : List (String × Finset String)) (c : String) :
    c ∈ findCandidatesByNGram targetTerm termNGramMap none ↔
      (if targetTerm.length ≤ 4 then 1
       else if targetTerm.length ≤ 7 then 2 else 3) ≤
        ((generateNGramsCombined targetTerm).filter
          (fun g => c ∈ gramSetOf termNGramMap g)).length := by
  have hnd := tallyCounts_keys_nodup termNGramMap (generateNGramsCombined targetTerm)
  have hcnt := countOf_tallyCounts termNGramMap (generateNGramsCombined targetTerm) c
  have hamm : 1 ≤ (if targetTerm.length ≤ 4 then 1
      else if targetTerm.length ≤ 7 then 2 else 3) := by
    split
    · exact le_refl 1
    · split
      · omega
      · omega
  unfold findCandidatesByNGram
  rw [mem_foldl_insert_filter]
  simp only [Finset.not_mem_empty, false_or]
  constructor
  · rintro ⟨p, hp, hpc, hle⟩
    have := countOf_eq_of_mem_nodup _ p hnd hp
    rw [hpc] at this
    rw [← hcnt, this]
    exact hle
  · intro hle
    rw [← hcnt] at hle
    have hpos : 1 ≤ countOf (tallyCounts termNGramMap
        (generateNGramsCombined targetTerm)) c := le_trans hamm hle
    rcases countOf_pos_find _ c hpos with ⟨p, hp, hp1, hp2⟩
    exact ⟨p, hp, hp1, by rw [hp2]; exact hle⟩

theorem mem_of_mem_storeDelete (s : IndexStore) (term : String)
    (it : InvertedIndexItem) (h : it ∈ storeDelete s term) : it ∈ s :=
  List.mem_of_mem_filter h

theorem term_ne_of_mem_storeDelete (s : IndexStore) (term : String)
    (it : InvertedIndexItem) (h : it ∈ storeDelete s term) : ¬ it.term = term := by
  have := List.of_mem_filter h
  simpa using this

theorem mem_of_mem_storePut (s : IndexStore) (item it : InvertedIndexItem)
    (h : it ∈ storePut s item) : it ∈ s ∨ it = item := by
  rcases List.mem_append.mp h with h2 | h2
  · exact Or.inl (mem_of_mem_storeDelete s item.term it h2)
  · exact Or.inr (List.mem_singleton.mp h2)

theorem addTermToIndex_wf (term : String) (docId : Nat) (s : IndexStore)
    (h : WellFormedStore s) : WellFormedStore (addTermToIndex term docId s) := by
  intro it hit
  unfold addTermToIndex at hit
  cases hget : storeGet s term with
  | some existingItem =>
    rw [hget] at hit
    by_cases hd : docId ∈ existingItem.docIds
    · simp only [hd, if_true] at hit
      exact h it hit
    · simp only [hd, if_false] at hit
      rcases mem_of_mem_storePut _ _ _ hit with h2 | h2
      · exact h it h2
      · subst h2
        exact ⟨rfl, Finset.insert_nonempty docId existingItem.docIds⟩
  | none =>
    rw [hget] at hit
    rcases List.mem_append.mp hit with h2 | h2
    · exact h it h2
    · rw [List.mem_singleton.mp h2]
      simp

theorem removeTermFromIndex_wf (term : String) (docId : Nat) (s : IndexStore)
    (h : WellFormedStore s) :
    WellFormedStore (removeTermFromIndex term docId s) := by
  intro it hit
  unfold removeTermFromIndex at hit
  cases hget : storeGet s term with
  | some item =>
    rw [hget] at hit
    by_cases hd : docId ∈ item.docIds
    · simp only [hd, if_true] at hit
      by_cases hcard : (item.docIds.erase docId).card = 0
      · simp only [hcard, if_true] at hit
        exact h it (mem_of_mem_storeDelete _ _ _ hit)
      · simp only [hcard, if_false] at hit
        rcases mem_of_mem_storePut _ _ _ hit with h2 | h2
        · exact h it h2
        · subst h2
          exact ⟨rfl, Finset.card_pos.mp (Nat.pos_of_ne_zero hcard)⟩
    · simp only [hd, if_false] at hit
      exact h it hit
  | none =>
    rw [hget] at hit
    exact h it hit

theorem indexDocument_wf (tok : String → List Token) (docId : Nat)
    (text : String) (st : IndexState) (h : WellFormedStore st.index) :
    WellFormedStore (InvertedIndex.indexDocument tok docId text st).index := by
  unfold InvertedIndex.indexDocument
  exact foldl_preserve _ WellFormedStore
    (fun s t hs => addTermToIndex_wf t docId s hs) _ _ h

theorem removeDocumentIndex_wf (docId : Nat) (st : IndexState)
    (h : WellFormedStore st.index) :
    WellFormedStore (removeDocumentIndex docId st).index := by
  unfold removeDocumentIndex
  exact foldl_preserve _ WellFormedStore
    (fun s t hs => removeTermFromIndex_wf t docId s hs) _ _ h

/-- C3: every sequence of `indexDocument` / `removeDocumentIndex` calls
preserves the posting-store invariant: each persisted entry satisfies
`count = |docIds|` and has a non-empty document set (an emptied entry is
deleted, never stored empty). -/
theorem applyOps_preserves_posting_invariant (tok : String → List Token)
    (ops : List IndexOp) (st : IndexState) (h : WellFormedStore st.index) :
    WellFormedStore (applyOps tok ops st).index := by
  unfold applyOps
  refine foldl_preserve (applyOp tok) (fun s => WellFormedStore s.index)
    ?_ ops st h
  intro s op hs
  cases op with
  | indexDoc docId text => exact indexDocument_wf tok docId text s hs
  | removeDoc docId => exact removeDocumentIndex_wf docId s hs

/-- Witness for C3 at a concrete operation sequence starting from empty
stores. -/
theorem applyOps_preserves_posting_invariant_witness :
    WellFormedStore
      ((applyOps (fun _ => [⟨"hello", 0, 5⟩, ⟨"world", 6, 5⟩])
        [IndexOp.indexDoc 1 "hello world", IndexOp.indexDoc 2 "hello world",
         IndexOp.removeDoc 1]
        { index := [], docTerms := ∅ }).index) :=
  applyOps_preserves_posting_invariant (fun _ => [⟨"hello", 0, 5⟩, ⟨"world", 6, 5⟩])
    [IndexOp.indexDoc 1 "hello world", IndexOp.indexDoc 2 "hello world",
     IndexOp.removeDoc 1]
    { index := [], docTerms := ∅ } (by intro it hit; simp at hit)

theorem uniqueTerms_elim (s : IndexStore) (hu : UniqueTerms s)
    (it it2 : InvertedIndexItem) (h1 : it ∈ s) (h2 : it2 ∈ s)
    (hterm : it.term = it2.term) : it = it2 := by
  induction s with
  | nil => simp at h1
  | cons q tl ih =>
    have hq := List.pairwise_cons.mp hu
    rcases List.mem_cons.mp h1 with ha | ha <;> rcases List.mem_cons.mp h2 with hb | hb
    · rw [ha, hb]
    · exact absurd hterm (ha ▸ hq.1 it2 hb)
    · exact absurd hterm.symm (hb ▸ hq.1 it ha)
    · exact ih hq.2 ha hb

theorem storeGet_eq_some_mem (s : IndexStore) (term : String)
    (item : InvertedIndexItem) (h : storeGet s term = some item) :
    item ∈ s ∧ item.term = term := by
  refine ⟨List.mem_of_find?_eq_some h, ?_⟩
  have := List.find?_some h
  simpa using this

theorem storeGet_eq_none_forall (s : IndexStore) (term : String)
    (h : storeGet s term = none) : ∀ it ∈ s, ¬ it.term = term := by
  intro it hit
  have := List.find?_eq_none.mp h it hit
  simpa using this

theorem removeTermFromIndex_noop (term : String) (docId : Nat) (s : IndexStore)
    (h : docId ∉ findDocumentsByTerm s term) :
    removeTermFromIndex term docId s = s := by
  unfold removeTermFromIndex
  unfold findDocumentsByTerm at h
  cases hget : storeGet s term with
  | some item =>
    rw [hget] at h
    simp only [h, if_false]
  | none => rfl

theorem mem_removeTermFromIndex (term : String) (docId : Nat) (s : IndexStore)
    (it : InvertedIndexItem) (hit : it ∈ removeTermFromIndex term docId s) :
    it ∈ s ∨ (it.term = term ∧ docId ∉ it.docIds) := by
  unfold removeTermFromIndex at hit
  cases hget : storeGet s term with
  | some item =>
    rw [hget] at hit
    by_cases hd : docId ∈ item.docIds
    · simp only [hd, if_true] at hit
      by_cases hcard : (item.docIds.erase docId).card = 0
      · simp only [hcard, if_true] at hit
        exact Or.inl (mem_of_mem_storeDelete _ _ _ hit)
      · simp only [hcard, if_false] at hit
        rcases mem_of_mem_storePut _ _ _ hit with h2 | h2
        · exact Or.inl h2
        · subst h2
          exact Or.inr ⟨(storeGet_eq_some_mem s term item hget).2,
            Finset.not_mem_erase docId item.docIds⟩
    · simp only [hd, if_false] at hit
      exact Or.inl hit
  | none =>
    rw [hget] at hit
    exact Or.inl hit

theorem removeTermFromIndex_clears (term : String) (docId : Nat) (s : IndexStore)
    (hu : UniqueTerms s) (it : InvertedIndexItem)
    (hit : it ∈ removeTermFromIndex term docId s) (hterm : it.term = term) :
    docId ∉ it.docIds := by
  unfold removeTermFromIndex at hit
  cases hget : storeGet s term with
  | some item =>
    rw [hget] at hit
    by_cases hd : docId ∈ item.docIds
    · simp only [hd, if_true] at hit
      by_cases hcard : (item.docIds.erase docId).card = 0
      · simp only [hcard, if_true] at hit
        exact absurd hterm (term_ne_of_mem_storeDelete _ _ _ hit)
      · simp only [hcard, if_false] at hit
        rcases List.mem_append.mp hit with h2 | h2
        · have h3 := term_ne_of_mem_storeDelete _ _ _ h2
          simp only at h3
          rw [(storeGet_eq_some_mem s term item hget).2] at h3
          exact absurd hterm h3
        · rw [List.mem_singleton.mp h2]
          exact Finset.not_mem_erase docId item.docIds
    · simp only [hd, if_false] at hit
      have hmem := storeGet_eq_some_mem s term item hget
      have : it = item :=
        uniqueTerms_elim s hu it item hit hmem.1 (by rw [hterm, hmem.2])
      rw [this]
      exact hd
  | none =>
    rw [hget] at hit
    exact absurd hterm (storeGet_eq_none_forall s term hget it hit)

theorem storeDelete_unique (s : IndexStore) (term : String)
    (hu : UniqueTerms s) : UniqueTerms (storeDelete s term) :=
  List.Pairwise.sublist (List.filter_sublist s) hu

theorem storePut_unique (s : IndexStore) (item : InvertedIndexItem)
    (hu : UniqueTerms s) : UniqueTerms (storePut s item) := by
  unfold storePut UniqueTerms
  rw [List.pairwise_append]
  refine ⟨storeDelete_unique s item.term hu, List.pairwise_singleton _ _, ?_⟩
  intro a ha b hb
  rw [List.mem_singleton.mp hb]
  exact term_ne_of_mem_storeDelete s item.term a ha

theorem addTermToIndex_unique (term : String) (docId : Nat) (s : IndexStore)
    (hu : UniqueTerms s) : UniqueTerms (addTermToIndex term docId s) := by
  unfold addTermToIndex
  cases hget : storeGet s term with
  | some existingItem =>
    by_cases hd : docId ∈ existingItem.docIds
    · simpa [hd] using hu
    · simp only [hd, if_false]
      exact storePut_unique s _ hu
  | none =>
    show UniqueTerms (storeAdd s { term := term, docIds := {docId}, count := 1 })
    unfold storeAdd UniqueTerms
    rw [List.pairwise_append]
    refine ⟨hu, List.pairwise_singleton _ _, ?_⟩
    intro a ha b hb
    rw [List.mem_singleton.mp hb]
    exact storeGet_eq_none_forall s term hget a ha

theorem removeTermFromIndex_unique (term : String) (docId : Nat)
    (s : IndexStore) (hu : UniqueTerms s) :
    UniqueTerms (removeTermFromIndex term docId s) := by
  unfold removeTermFromIndex
  cases hget : storeGet s term with
  | some item =>
    by_cases hd : docId ∈ item.docIds
    · simp only [hd, if_true]
      by_cases hcard : (item.docIds.erase docId).card = 0
      · simp only [hcard, if_true]
        exact storeDelete_unique s term hu
      · simp only [hcard, if_false]
        have h2 := storePut_unique s
          { item with
            docIds := item.docIds.erase docId,
            count := (item.docIds.erase docId).card } hu
        exact h2
    · simpa [hd] using hu
  | none => exact hu

theorem foldl_remove_spec (d : Nat) (R : List String) (s : IndexStore)
    (hu : UniqueTerms s) :
    UniqueTerms (R.foldl (fun acc t => removeTermFromIndex t d acc) s)
    ∧ ∀ it ∈ R.foldl (fun acc t => removeTermFromIndex t d acc) s,
        (it.term ∈ R → d ∉ it.docIds) ∧ (it.term ∉ R → it ∈ s) := by
  induction R generalizing s with
  | nil =>
    exact ⟨hu, fun it hit => ⟨by simp, fun _ => hit⟩⟩
  | cons t tl ih =>
    have hu1 := removeTermFromIndex_unique t d s hu
    rcases ih (removeTermFromIndex t d s) hu1 with ⟨ihu, ihmem⟩
    refine ⟨ihu, ?_⟩
    intro it hit
    rcases ihmem it hit with ⟨hin, hout⟩
    constructor
    · intro hmem
      rcases List.mem_cons.mp hmem with hterm | hterm
      · by_cases htl : it.term ∈ tl
        · exact hin htl
        · exact removeTermFromIndex_clears t d s hu it (hout htl) hterm
      · exact hin hterm
    · intro hnmem
      have htl : it.term ∉ tl := fun h => hnmem (List.mem_cons_of_mem t h)
      have hterm : ¬ it.term = t := fun h => hnmem (h ▸ List.mem_cons_self t tl)
      rcases mem_removeTermFromIndex t d s it (hout htl) with h | h
      · exact h
      · exact absurd h.1 hterm

theorem addTermToIndex_docIds_origin (t : String) (d : Nat) (s : IndexStore)
    (it : InvertedIndexItem) (hit : it ∈ addTermToIndex t d s) (x : Nat)
    (hx : x ∈ it.docIds) :
    (x = d ∧ it.term = t) ∨ ∃ it0 ∈ s, it0.term = it.term ∧ x ∈ it0.docIds := by
  unfold addTermToIndex at hit
  cases hget : storeGet s t with
  | some existingItem =>
    rw [hget] at hit
    have hmem := storeGet_eq_some_mem s t existingItem hget
    by_cases hd : d ∈ existingItem.docIds
    · simp only [hd, if_true] at hit
      exact Or.inr ⟨it, hit, rfl, hx⟩
    · simp only [hd, if_false] at hit
      rcases List.mem_append.mp hit with h2 | h2
      · exact Or.inr ⟨it, mem_of_mem_storeDelete _ _ _ h2, rfl, hx⟩
      · rw [List.mem_singleton.mp h2] at hx ⊢
        simp only at hx ⊢
        rcases Finset.mem_insert.mp hx with hx2 | hx2
        · exact Or.inl ⟨hx2, hmem.2⟩
        · exact Or.inr ⟨existingItem, hmem.1, rfl, hx2⟩
  | none =>
    rw [hget] at hit
    rcases List.mem_append.mp hit with h2 | h2
    · exact Or.inr ⟨it, h2, rfl, hx⟩
    · rw [List.mem_singleton.mp h2] at hx ⊢
      exact Or.inl ⟨Finset.mem_singleton.mp hx, rfl⟩

theorem foldl_add_docIds_origin (d : Nat) (terms : List String) (s0 : IndexStore)
    (it : InvertedIndexItem)
    (hit : it ∈ terms.foldl (fun acc t => addTermToIndex t d acc) s0)
    (x : Nat) (hx : x ∈ it.docIds) :
    (x = d ∧ it.term ∈ terms) ∨ ∃ it0 ∈ s0, it0.term = it.term ∧ x ∈ it0.docIds := by
  induction terms generalizing s0 with
  | nil =>
    exact Or.inr ⟨it, hit, rfl, hx⟩
  | cons t tl ih =>
    rcases ih (addTermToIndex t d s0) hit with h | ⟨it0, hit0, hterm0, hx0⟩
    · exact Or.inl ⟨h.1, List.mem_cons_of_mem t h.2⟩
    · rcases addTermToIndex_docIds_origin t d s0 it0 hit0 x hx0 with h2 | ⟨it1, hit1, hterm1, hx1⟩
      · exact Or.inl ⟨h2.1, by rw [← hterm0, h2.2]; exact List.mem_cons_self t tl⟩
      · exact Or.inr ⟨it1, hit1, by rw [hterm1, hterm0], hx1⟩

theorem mem_foldl_insert_pair (d : Nat) (terms : List String)
    (dt : Finset (Nat × String)) (p : Nat × String) :
    p ∈ terms.foldl (fun acc t => insert (d, t) acc) dt ↔
      p ∈ dt ∨ ∃ t ∈ terms, p = (d, t) := by
  induction terms generalizing dt with
  | nil => simp
  | cons t tl ih =>
    simp only [List.foldl_cons, ih, Finset.mem_insert, List.exists_mem_cons_iff]
    tauto

theorem indexDocument_coherent (tok : String → List Token) (d : Nat)
    (text : String) (st : IndexState) (hco : CoherentFor d st) :
    CoherentFor d (InvertedIndex.indexDocument tok d text st) := by
  intro it hit hd
  unfold InvertedIndex.indexDocument at hit ⊢
  simp only at hit ⊢
  rw [mem_foldl_insert_pair]
  rcases foldl_add_docIds_origin d _ st.index it hit d hd with h | ⟨it0, hit0, hterm0, hx0⟩
  · exact Or.inr ⟨it.term, h.2, rfl⟩
  · exact Or.inl (by rw [← hterm0]; exact hco it0 hit0 hx0)

theorem indexDocument_unique (tok : String → List Token) (d : Nat)
    (text : String) (st : IndexState) (hu : UniqueTerms st.index) :
    UniqueTerms (InvertedIndex.indexDocument tok d text st).index := by
  unfold InvertedIndex.indexDocument
  exact foldl_preserve _ UniqueTerms
    (fun s t hs => addTermToIndex_unique t d s hs) _ _ hu

theorem mem_getDocumentTerms (st : IndexState) (d : Nat) (t : String) :
    t ∈ getDocumentTerms st d ↔ (d, t) ∈ st.docTerms := by
  unfold getDocumentTerms
  rw [Finset.mem_sort, Finset.mem_image]
  constructor
  · rintro ⟨p, hp, hpt⟩
    rcases Finset.mem_filter.mp hp with ⟨hpdt, hpd⟩
    have : p = (d, t) := by
      cases p
      simp only at hpd hpt
      rw [hpd, hpt]
    rw [← this]
    exact hpdt
  · intro h
    exact ⟨(d, t), Finset.mem_filter.mpr ⟨h, rfl⟩, rfl⟩

/-- C4: indexing a document and then removing it leaves no posting entry
referencing the document (and no empty posting entry is retained);
removing an absent document from a term's posting set is a no-op on the
store, and `removeDocumentIndex` is idempotent. -/
theorem index_then_remove_clean (tok : String → List Token) (docId : Nat)
    (text : String) (st : IndexState) (hu : UniqueTerms st.index)
    (hwf : WellFormedStore st.index) (hco : CoherentFor docId st) :
    (∀ it ∈ (removeDocumentIndex docId
        (InvertedIndex.indexDocument tok docId text st)).index,
      docId ∉ it.docIds ∧ it.docIds.Nonempty)
    ∧ (∀ (term : String) (d2 : Nat) (s2 : IndexStore),
        d2 ∉ findDocumentsByTerm s2 term → removeTermFromIndex term d2 s2 = s2)
    ∧ removeDocumentIndex docId (removeDocumentIndex docId st) =
        removeDocumentIndex docId st := by
  refine ⟨?_, fun term d2 s2 h => removeTermFromIndex_noop term d2 s2 h, ?_⟩
  · set st1 := InvertedIndex.indexDocument tok docId text st with hst1
    have hu1 : UniqueTerms st1.index := indexDocument_unique tok docId text st hu
    have hco1 : CoherentFor docId st1 := indexDocument_coherent tok docId text st hco
    have hwf1 : WellFormedStore st1.index := indexDocument_wf tok docId text st hwf
    intro it hit
    have hne : it.docIds.Nonempty :=
      (removeDocumentIndex_wf docId st1 hwf1 it hit).2
    refine ⟨?_, hne⟩
    have hit2 : it ∈ (getDocumentTerms st1 docId).foldl
        (fun acc t => removeTermFromIndex t docId acc) st1.index := hit
    rcases foldl_remove_spec docId (getDocumentTerms st1 docId) st1.index hu1
      with ⟨_, hspec⟩
    rcases hspec it hit2 with ⟨hin, hout⟩
    by_cases hR : it.term ∈ getDocumentTerms st1 docId
    · exact hin hR
    · intro hd
      have := hco1 it (hout hR) hd
      exact hR ((mem_getDocumentTerms st1 docId it.term).mpr this)
  · have heq : ∀ st2 : IndexState, removeDocumentIndex docId st2 =
        { index := (getDocumentTerms st2 docId).foldl
            (fun acc term => removeTermFromIndex term docId acc) st2.index,
          docTerms := st2.docTerms.filter (fun p => ¬ p.1 = docId) } :=
      fun st2 => rfl
    have hdt0 : (removeDocumentIndex docId st).docTerms =
        st.docTerms.filter (fun p => ¬ p.1 = docId) := rfl
    have hterms2 : getDocumentTerms (removeDocumentIndex docId st) docId = [] := by
      unfold getDocumentTerms
      rw [hdt0, Finset.filter_filter]
      have hempty : (st.docTerms.filter (fun p => ¬ p.1 = docId ∧ p.1 = docId)) = ∅ := by
        refine Finset.filter_false_of_mem ?_
        intro p _
        tauto
      rw [hempty]
      simp
    have hdt : ((removeDocumentIndex docId st).docTerms).filter
        (fun p => ¬ p.1 = docId) = (removeDocumentIndex docId st).docTerms := by
      rw [hdt0, Finset.filter_filter]
      refine Finset.filter_congr ?_
      intro p _
      tauto
    rw [heq (removeDocumentIndex docId st), hterms2, hdt]
    simp only [List.foldl_nil]

/-- Witness for C4 at a concrete prior state, document and text. -/
theorem index_then_remove_clean_witness :
    (∀ it ∈ (removeDocumentIndex 2
        (InvertedIndex.indexDocument (fun _ => [⟨"hello", 0, 5⟩]) 2 "hello"
          { index := [⟨"hello", {1}, 1⟩], docTerms := {(1, "hello")} })).index,
      (2 : Nat) ∉ it.docIds ∧ it.docIds.Nonempty)
    ∧ (∀ (term : String) (d2 : Nat) (s2 : IndexStore),
        d2 ∉ findDocumentsByTerm s2 term → removeTermFromIndex term d2 s2 = s2)
    ∧ removeDocumentIndex 2 (removeDocumentIndex 2
        { index := [⟨"hello", {1}, 1⟩], docTerms := {(1, "hello")} }) =
      removeDocumentIndex 2
        { index := [⟨"hello", {1}, 1⟩], docTerms := {(1, "hello")} } :=
  index_then_remove_clean (fun _ => [⟨"hello", 0, 5⟩]) 2 "hello"
    { index := [⟨"hello", {1}, 1⟩], docTerms := {(1, "hello")} }
    (List.pairwise_singleton _ _)
    (by
      intro it hit
      rw [List.mem_singleton] at hit
      subst hit
      exact ⟨by decide, by decide⟩)
    (by
      intro it hit hd
      rw [List.mem_singleton] at hit
      subst hit
      simp only at hd
      exact absurd hd (by decide))

unseal List.merge List.mergeSort in
/-- Counterexample for C6 as stated: under a descending sort on field `a`,
the document whose value is `null` (docId 1) is placed FIRST, not last —
the comparator negation for `desc` applies to the null handling too. -/
theorem sorter_nulls_desc_counterexample :
    gvC6 1 "a" = JsValue.vNull
    ∧ gvC6 2 "a" = JsValue.vNum 5
    ∧ Sorter.sort gvC6 [1, 2] [{ field := "a", order := Order.desc }] = [1, 2] := by
  refine ⟨rfl, rfl, ?_⟩
  rfl

/-- C6 (amended): the Sorter compares values by type (numeric, temporal,
else lexicographic string comparison), applies a stable multi-key
mergesort in which the first field is primary and later fields break
ties, and places `null`/absent values last in ascending order but first in
descending order (the direction negation applies to the null comparison as
well).  The transitivity/totality hypotheses express that the compared
field values are type-consistent, as holds for any homogeneous projection. -/
theorem sorter_sort_spec (getVal : Nat → String → JsValue) (docIds : List Nat)
    (sortBy : List SortField)
    (htrans : ∀ a b c : Nat, compareDocIds getVal sortBy a b ≤ 0 →
      compareDocIds getVal sortBy b c ≤ 0 → compareDocIds getVal sortBy a c ≤ 0)
    (htotal : ∀ a b : Nat, compareDocIds getVal sortBy a b ≤ 0 ∨
      compareDocIds getVal sortBy b a ≤ 0) :
    (Sorter.sort getVal docIds sortBy).Perm docIds
    ∧ (Sorter.sort getVal docIds sortBy).Pairwise
        (fun a b => compareDocIds getVal sortBy a b ≤ 0)
    ∧ (∀ a b : Nat, compareDocIds getVal sortBy a b = 0 →
        [a, b].Sublist docIds → [a, b].Sublist (Sorter.sort getVal docIds sortBy))
    ∧ (∀ (sf : SortField) (rest : List SortField) (a b : Nat),
        compareValues (getVal a sf.field) (getVal b sf.field) ≠ 0 →
        compareDocIds getVal (sf :: rest) a b =
          (if sf.order = Order.asc then
            compareValues (getVal a sf.field) (getVal b sf.field)
          else -compareValues (getVal a sf.field) (getVal b sf.field)))
    ∧ (∀ (sf : SortField) (rest : List SortField) (a b : Nat),
        compareValues (getVal a sf.field) (getVal b sf.field) = 0 →
        compareDocIds getVal (sf :: rest) a b = compareDocIds getVal rest a b)
    ∧ (∀ x y : Int, compareValues (JsValue.vNum x) (JsValue.vNum y) = x - y)
    ∧ (∀ x y : Int, compareValues (JsValue.vDate x) (JsValue.vDate y) = x - y)
    ∧ (∀ x y : String, compareValues (JsValue.vStr x) (JsValue.vStr y) =
        strCompare x y)
    ∧ (∀ v : JsValue, v ≠ JsValue.vNull →
        compareValues JsValue.vNull v = 1 ∧ compareValues v JsValue.vNull = -1)
    ∧ (∀ (f : String) (ord : Order) (a b : Nat),
        sortBy = [{ field := f, order := ord }] →
        getVal a f = JsValue.vNull → getVal b f ≠ JsValue.vNull →
        (ord = Order.asc → ¬ [a, b].Sublist (Sorter.sort getVal docIds sortBy))
        ∧ (ord = Order.desc → ¬ [b, a].Sublist (Sorter.sort getVal docIds sortBy))) := by
  have hleB : ∀ a b : Nat,
      ((fun a b => decide (compareDocIds getVal sortBy a b ≤ 0)) a b = true) ↔
        compareDocIds getVal sortBy a b ≤ 0 := by
    intro a b
    simp
  have htransB : ∀ a b c : Nat,
      (fun a b => decide (compareDocIds getVal sortBy a b ≤ 0)) a b = true →
      (fun a b => decide (compareDocIds getVal sortBy a b ≤ 0)) b c = true →
      (fun a b => decide (compareDocIds getVal sortBy a b ≤ 0)) a c = true := by
    intro a b c h1 h2
    rw [hleB] at h1 h2 ⊢
    exact htrans a b c h1 h2
  have htotalB : ∀ a b : Nat,
      ((fun a b => decide (compareDocIds getVal sortBy a b ≤ 0)) a b ||
       (fun a b => decide (compareDocIds getVal sortBy a b ≤ 0)) b a) = true := by
    intro a b
    rcases htotal a b with h | h <;> simp [h]
  have hperm : (Sorter.sort getVal docIds sortBy).Perm docIds :=
    List.mergeSort_perm docIds _
  have hsorted : (Sorter.sort getVal docIds sortBy).Pairwise
      (fun a b => compareDocIds getVal sortBy a b ≤ 0) := by
    have h := List.sorted_mergeSort htransB htotalB docIds
    refine h.imp ?_
    intro a b hab
    exact (hleB a b).mp hab
  have hnullcmp : ∀ v : JsValue, v ≠ JsValue.vNull →
      compareValues JsValue.vNull v = 1 ∧ compareValues v JsValue.vNull = -1 := by
    intro v hv
    cases v with
    | vNull => exact absurd rfl hv
    | vNum n => exact ⟨rfl, rfl⟩
    | vDate t => exact ⟨rfl, rfl⟩
    | vStr s => exact ⟨rfl, rfl⟩
  refine ⟨hperm, hsorted, ?_, ?_, ?_, fun x y => rfl, fun x y => rfl,
    fun x y => rfl, hnullcmp, ?_⟩
  · intro a b hab hsub
    refine List.mergeSort_stable_pair htransB htotalB ?_ hsub
    simp [hab]
  · intro sf rest a b h
    conv_lhs => rw [compareDocIds]
    simp [h]
  · intro sf rest a b h
    conv_lhs => rw [compareDocIds]
    simp [h]
  · intro f ord a b hsb ha hb
    have hcmp : compareValues (getVal a f) (getVal b f) = 1 := by
      rw [ha]
      exact (hnullcmp _ hb).1
    have hcmp2 : compareValues (getVal b f) (getVal a f) = -1 := by
      rw [ha]
      exact (hnullcmp _ hb).2
    constructor
    · intro hord hsub
      have hpw := hsorted.sublist hsub
      have hba := (List.pairwise_cons.mp hpw).1 b (List.mem_singleton.mpr rfl)
      rw [hsb] at hba
      have hval : compareDocIds getVal [{ field := f, order := ord }] a b = 1 := by
        rw [compareDocIds]
        simp [hcmp, hord]
      rw [hval] at hba
      omega
    · intro hord hsub
      have hpw := hsorted.sublist hsub
      have hba := (List.pairwise_cons.mp hpw).1 a (List.mem_singleton.mpr rfl)
      rw [hsb] at hba
      have hval : compareDocIds getVal [{ field := f, order := ord }] b a = 1 := by
        rw [compareDocIds]
        simp [hcmp2, hord]
      rw [hval] at hba
      omega

/-- Witness for C6 (amended) at a concrete projection, id list and sort
specification. -/
theorem sorter_sort_spec_witness :
    (Sorter.sort gvC6 [1, 2] [{ field := "a", order := Order.asc }]).Perm [1, 2]
    ∧ (Sorter.sort gvC6 [1, 2] [{ field := "a", order := Order.asc }]).Pairwise
        (fun a b =>
          compareDocIds gvC6 [{ field := "a", order := Order.asc }] a b ≤ 0)
    ∧ (∀ a b : Nat,
        compareDocIds gvC6 [{ field := "a", order := Order.asc }] a b = 0 →
        [a, b].Sublist [1, 2] →
        [a, b].Sublist (Sorter.sort gvC6 [1, 2] [{ field := "a", order := Order.asc }]))
    ∧ (∀ (sf : SortField) (rest : List SortField) (a b : Nat),
        compareValues (gvC6 a sf.field) (gvC6 b sf.field) ≠ 0 →
        compareDocIds gvC6 (sf :: rest) a b =
          (if sf.order = Order.asc then
            compareValues (gvC6 a sf.field) (gvC6 b sf.field)
          else -compareValues (gvC6 a sf.field) (gvC6 b sf.field)))
    ∧ (∀ (sf : SortField) (rest : List SortField) (a b : Nat),
        compareValues (gvC6 a sf.field) (gvC6 b sf.field) = 0 →
        compareDocIds gvC6 (sf :: rest) a b = compareDocIds gvC6 rest a b)
    ∧ (∀ x y : Int, compareValues (JsValue.vNum x) (JsValue.vNum y) = x - y)
    ∧ (∀ x y : Int, compareValues (JsValue.vDate x) (JsValue.vDate y) = x - y)
    ∧ (∀ x y : String, compareValues (JsValue.vStr x) (JsValue.vStr y) =
        strCompare x y)
    ∧ (∀ v : JsValue, v ≠ JsValue.vNull →
        compareValues JsValue.vNull v = 1 ∧ compareValues v JsValue.vNull = -1)
    ∧ (∀ (f : String) (ord : Order) (a b : Nat),
        [{ field := "a", order := Order.asc }] =
          ([{ field := f, order := ord }] : List SortField) →
        gvC6 a f = JsValue.vNull → gvC6 b f ≠ JsValue.vNull →
        (ord = Order.asc →
          ¬ [a, b].Sublist
            (Sorter.sort gvC6 [1, 2] [{ field := "a", order := Order.asc }]))
        ∧ (ord = Order.desc →
          ¬ [b, a].Sublist
            (Sorter.sort gvC6 [1, 2] [{ field := "a", order := Order.asc }]))) := by
  refine sorter_sort_spec gvC6 [1, 2] [{ field := "a", order := Order.asc }] ?_ ?_
  · intro a b c h1 h2
    by_cases ha : a = 2 <;> by_cases hb : b = 2 <;> by_cases hc : c = 2 <;>
      simp_all [compareDocIds, compareValues, gvC6]
  · intro a b
    by_cases ha : a = 2 <;> by_cases hb : b = 2 <;>
      simp_all [compareDocIds, compareValues, gvC6]

/-- C1 (evaluation at the failing input): `indexDocument` tokenizes,
de-duplicates and upserts exactly as claimed — creating `{term, {docId}, 1}`
for a new term, adding the docId and recomputing `count` for an existing
term, and doing nothing when the docId is already present — but the method
is `Promise<void>`: its value is only the updated store state and carries
no term list, while `specIndexDocumentTerms` is the de-duplicated list the
spec says it returns (and which the caller in `index.ts` assigns to
`doc.terms`). -/
theorem indexDocument_upsert_void_eval :
    specIndexDocumentTerms tokC1 "hello world" = ["hello", "world"]
    ∧ specIndexDocumentTerms tokC1 "hello hello" = ["hello"]
    ∧ InvertedIndex.indexDocument tokC1 1 "hello world"
        { index := [], docTerms := ∅ } =
      { index := [{ term := "hello", docIds := {1}, count := 1 },
                  { term := "world", docIds := {1}, count := 1 }],
        docTerms := insert (1, "world") (insert (1, "hello") ∅) }
    ∧ InvertedIndex.indexDocument tokC1 2 "hello world"
        { index := [{ term := "hello", docIds := {1}, count := 1 },
                    { term := "world", docIds := {1}, count := 1 }],
          docTerms := insert (1, "world") (insert (1, "hello") ∅) } =
      { index := [{ term := "hello", docIds := insert 2 {1}, count := 2 },
                  { term := "world", docIds := insert 2 {1}, count := 2 }],
        docTerms := insert (2, "world") (insert (2, "hello")
          (insert (1, "world") (insert (1, "hello") ∅))) }
    ∧ InvertedIndex.indexDocument tokC1 1 "hello world"
        { index := [{ term := "hello", docIds := {1}, count := 1 },
                    { term := "world", docIds := {1}, count := 1 }],
          docTerms := insert (1, "world") (insert (1, "hello") ∅) } =
      { index := [{ term := "hello", docIds := {1}, count := 1 },
                  { term := "world", docIds := {1}, count := 1 }],
        docTerms := insert (1, "world") (insert (1, "hello") ∅) } :=
  ⟨rfl, rfl, rfl, rfl, rfl⟩

theorem cursorLoop_eq (key : JsDoc → Nat) (pred : JsDoc → Bool)
    (mk : JsDoc → SearchResultItem) (limit : Nat) (l : List JsDoc)
    (items : List SearchResultItem) (lm : Option Nat)
    (hlen : items.length < limit) :
    cursorLoop key pred mk limit l items lm =
      { items := items ++ ((l.filter pred).take (limit - items.length)).map mk,
        nextKey :=
          if (l.filter pred).length < limit - items.length then none
          else ((l.filter pred).take (limit - items.length)).getLast?.map key } := by
  induction l generalizing items lm with
  | nil =>
    simp only [cursorLoop, List.filter_nil, List.take_nil, List.map_nil,
      List.append_nil, List.length_nil]
    rw [if_pos (by omega)]
  | cons d rest ih =>
    rw [cursorLoop]
    cases hpd : pred d with
    | false =>
      simp only [hpd, Bool.false_eq_true, if_false]
      rw [if_neg (by omega)]
      rw [ih items lm hlen]
      simp only [List.filter_cons, hpd, Bool.false_eq_true, if_false]
    | true =>
      simp only [hpd, if_true]
      have hfc : (d :: rest).filter pred = d :: rest.filter pred := by
        simp [List.filter_cons, hpd]
      by_cases hl : limit ≤ (items ++ [mk d]).length
      · rw [if_pos hl]
        have hk : limit - items.length = 1 := by
          simp only [List.length_append, List.length_singleton] at hl
          omega
        rw [hfc, hk]
        have ht1 : (d :: rest.filter pred).take 1 = [d] := rfl
        rw [ht1]
        simp only [List.map_cons, List.map_nil, List.getLast?_singleton,
          Option.map_some]
        rw [if_neg (by simp)]
        rfl
      · rw [if_neg hl]
        have hlen2 : (items ++ [mk d]).length < limit := by omega
        rw [ih _ _ hlen2]
        have hk2 : limit - (items ++ [mk d]).length = limit - items.length - 1 := by
          simp only [List.length_append, List.length_singleton]
          omega
        have hkpos : 2 ≤ limit - items.length := by
          simp only [List.length_append, List.length_singleton] at hlen2
          omega
        rw [hfc, hk2]
        have hksucc : limit - items.length = (limit - items.length - 1) + 1 := by
          omega
        rw [hksucc]
        set m := limit - items.length - 1 with hm
        have hmpos : 1 ≤ m := by omega
        have htake : (d :: rest.filter pred).take (m + 1) =
            d :: (rest.filter pred).take m := rfl
        rw [htake]
        have hitems : items ++ List.map mk (d :: (rest.filter pred).take m) =
            items ++ [mk d] ++ List.map mk ((rest.filter pred).take m) := by
          simp
        have hcond : ((d :: rest.filter pred).length < m + 1) ↔
            ((rest.filter pred).length < m) := by
          simp only [List.length_cons]
          omega
        have hnk : (if (d :: rest.filter pred).length < m + 1 then none
            else (d :: (rest.filter pred).take m).getLast?.map key) =
            (if (rest.filter pred).length < m then none
            else ((rest.filter pred).take m).getLast?.map key) := by
          by_cases hc : (rest.filter pred).length < m
          · rw [if_pos hc, if_pos (hcond.mpr hc)]
          · rw [if_neg hc, if_neg (fun h => hc (hcond.mp h))]
            have hne : (rest.filter pred).take m ≠ [] := by
              intro hnil
              have := congrArg List.length hnil
              simp only [List.length_take, List.length_nil] at this
              omega
            cases hcase : (rest.filter pred).take m with
            | nil => exact absurd hcase hne
            | cons x xs => rw [List.getLast?_cons_cons]
        rw [hitems, hnk]
        simp only [Nat.add_sub_cancel]

theorem ordStep_irrefl (order : Order) (k : Nat) : ordStep order k k = false := by
  cases order <;> simp [ordStep]

theorem ordStep_asymm (order : Order) (x y : Nat) (h : ordStep order x y = true) :
    ordStep order y x = false := by
  cases order <;> simp [ordStep] at h ⊢ <;> omega

theorem ordStep_trans (order : Order) (x y z : Nat)
    (h1 : ordStep order x y = true) (h2 : ordStep order y z = true) :
    ordStep order x z = true := by
  cases order <;> simp [ordStep] at h1 h2 ⊢ <;> omega

theorem inKeyRange_some (sortBy : SortBy) (order : Order) (l0 : Nat)
    (d : JsDoc) :
    inKeyRange sortBy order (some l0) d = ordStep order l0 (keyOf sortBy d) := by
  cases order <;> rfl

theorem mem_visibleDocs (sortBy : SortBy) (order : Order) (lastKey : Option Nat)
    (docs : List JsDoc) (d : JsDoc)
    (h : d ∈ visibleDocs sortBy order lastKey docs) :
    d ∈ docs ∧ inKeyRange sortBy order lastKey d = true := by
  unfold visibleDocs at h
  cases order with
  | asc =>
    simp only at h
    exact ⟨List.mem_of_mem_filter h, List.of_mem_filter h⟩
  | desc =>
    simp only [List.mem_reverse] at h
    exact ⟨List.mem_of_mem_filter h, List.of_mem_filter h⟩

theorem visibleDocs_pairwise (sortBy : SortBy) (order : Order)
    (lastKey : Option Nat) (docs : List JsDoc)
    (hsort : docs.Pairwise (fun a b => keyOf sortBy a < keyOf sortBy b)) :
    (visibleDocs sortBy order lastKey docs).Pairwise
      (fun a b => ordStep order (keyOf sortBy a) (keyOf sortBy b) = true) := by
  unfold visibleDocs
  cases order with
  | asc =>
    simp only
    refine List.Pairwise.imp (fun hab => ?_)
      (List.Pairwise.sublist (List.filter_sublist docs) hsort)
    simpa [ordStep] using hab
  | desc =>
    simp only
    rw [List.pairwise_reverse]
    refine List.Pairwise.imp (fun hab => ?_)
      (List.Pairwise.sublist (List.filter_sublist docs) hsort)
    simpa [ordStep] using hab

theorem filter_ordStep_eq_drop (order : Order) (sortBy : SortBy)
    (F : List JsDoc)
    (hpw : F.Pairwise
      (fun a b => ordStep order (keyOf sortBy a) (keyOf sortBy b) = true))
    (n : Nat) (h1 : 1 ≤ n) (hn : n ≤ F.length) (hlt : n - 1 < F.length)
    (k : Nat) (hk : k = keyOf sortBy (F.get ⟨n - 1, hlt⟩)) :
    F.filter (fun d => ordStep order k (keyOf sortBy d)) = F.drop n := by
  have hpair := List.pairwise_iff_getElem.mp hpw
  have hsplit : F = F.take n ++ F.drop n := (List.take_append_drop n F).symm
  have hkk : k = keyOf sortBy (F.get ⟨n - 1, hlt⟩) := hk
  have h1part : ∀ e ∈ F.take n, ¬ (ordStep order k (keyOf sortBy e) = true) := by
    intro e he
    rcases List.mem_iff_getElem.mp he with ⟨j, hj, hje⟩
    have hjlen : j < n := by
      have h2 := hj
      simp only [List.length_take] at h2
      omega
    have hjF : j < F.length := by omega
    have hejF : e = F.get ⟨j, hjF⟩ := by
      rw [← hje]
      simp [List.getElem_take]
    by_cases hjn : j = n - 1
    · rw [hejF, hkk]
      subst hjn
      simp [ordStep_irrefl]
    · have hjlt : j < n - 1 := by omega
      have hR := hpair j (n - 1) hjF hlt hjlt
      rw [hejF, hkk]
      have hasym := ordStep_asymm order _ _ hR
      intro hcon
      have : keyOf sortBy (F.get ⟨n - 1, hlt⟩) = keyOf sortBy F[n - 1] := rfl
      rw [this] at hcon
      have : keyOf sortBy (F.get ⟨j, hjF⟩) = keyOf sortBy F[j] := rfl
      rw [this] at hcon
      rw [hasym] at hcon
      exact Bool.false_ne_true hcon
  have h2part : ∀ e ∈ F.drop n, ordStep order k (keyOf sortBy e) = true := by
    intro e he
    rcases List.mem_iff_getElem.mp he with ⟨j, hj, hje⟩
    have hjlen : j < F.length - n := by
      have h2 := hj
      simp only [List.length_drop] at h2
      omega
    have hnj : n + j < F.length := by omega
    have hejF : e = F.get ⟨n + j, hnj⟩ := by
      rw [← hje]
      simp [List.getElem_drop]
    have hR := hpair (n - 1) (n + j) hlt hnj (by omega)
    rw [hejF, hkk]
    exact hR
  conv_lhs => rw [hsplit]
  rw [List.filter_append]
  rw [List.filter_eq_nil_iff.mpr h1part]
  rw [List.filter_eq_self.mpr h2part]
  simp

theorem visibleDocs_resume (sortBy : SortBy) (order : Order) (lk : Option Nat)
    (docs : List JsDoc) (k : Nat)
    (hlk : ∀ l0, lk = some l0 → ordStep order l0 k = true) :
    visibleDocs sortBy order (some k) docs =
      (visibleDocs sortBy order lk docs).filter
        (fun d => ordStep order k (keyOf sortBy d)) := by
  have hpoint : ∀ d ∈ docs, inKeyRange sortBy order (some k) d =
      (ordStep order k (keyOf sortBy d) && inKeyRange sortBy order lk d) := by
    intro d _
    cases lk with
    | none =>
      rw [inKeyRange_some]
      simp [inKeyRange]
    | some l0 =>
      rw [inKeyRange_some, inKeyRange_some]
      have h0 := hlk l0 rfl
      cases hko : ordStep order k (keyOf sortBy d) with
      | false => simp [hko]
      | true =>
        have := ordStep_trans order l0 k _ h0 hko
        simp [hko, this]
  have hfilters : docs.filter (inKeyRange sortBy order (some k)) =
      (docs.filter (inKeyRange sortBy order lk)).filter
        (fun d => ordStep order k (keyOf sortBy d)) := by
    rw [List.filter_filter]
    exact List.filter_congr hpoint
  unfold visibleDocs
  cases order with
  | asc =>
    simpa using hfilters
  | desc =>
    simp only
    rw [List.filter_reverse, ← hfilters]

theorem getLast?_take_eq (l : List JsDoc) (n : Nat) (h1 : 1 ≤ n)
    (hn : n ≤ l.length) (hlt : n - 1 < l.length) :
    (l.take n).getLast? = some (l.get ⟨n - 1, hlt⟩) := by
  rw [List.getLast?_eq_getElem?]
  have hlen : (l.take n).length = n := by
    simp only [List.length_take]
    omega
  rw [hlen]
  have hn1 : n - 1 < (l.take n).length := by omega
  rw [List.getElem?_eq_getElem hn1]
  congr 1
  simp [List.getElem_take]

theorem searchWithCursor_page (tok : String → List Token) (idx : IndexStore)
    (docs : List JsDoc) (q : String) (options : SearchCursorOptions)
    (lk : Option Nat) (hq : ¬ q.isEmpty)
    (ht : ¬ (QueryParser.parse tok (some q) options.exact).terms.isEmpty)
    (hlimit : 1 ≤ options.limit) :
    searchWithCursor tok idx docs (some q) { options with lastKey := lk } =
      { items := (((visibleDocs options.sortBy options.order lk docs).filter
            (predOf tok idx q options)).take options.limit).map
            (mkItemOf q options),
        nextKey :=
          if ((visibleDocs options.sortBy options.order lk docs).filter
              (predOf tok idx q options)).length < options.limit then none
          else ((((visibleDocs options.sortBy options.order lk docs).filter
              (predOf tok idx q options)).take options.limit).getLast?).map
            (keyOf options.sortBy) } := by
  unfold searchWithCursor
  simp only [hq, Bool.false_eq_true, if_false, ht]
  rw [cursorLoop_eq _ _ _ _ _ _ _ (by simpa using hlimit)]
  have hpred : predOf tok idx q { options with lastKey := lk } =
      predOf tok idx q options := rfl
  have hmk : mkItemOf q { options with lastKey := lk } =
      mkItemOf q options := rfl
  simp [hpred, hmk]

theorem chainedSearch_eq (tok : String → List Token) (idx : IndexStore)
    (docs : List JsDoc) (q : String) (options : SearchCursorOptions)
    (hsort : docs.Pairwise
      (fun a b => keyOf options.sortBy a < keyOf options.sortBy b))
    (hq : ¬ q.isEmpty)
    (ht : ¬ (QueryParser.parse tok (some q) options.exact).terms.isEmpty)
    (hlimit : 1 ≤ options.limit) :
    ∀ (fuel : Nat) (lk : Option Nat),
      ((visibleDocs options.sortBy options.order lk docs).filter
        (predOf tok idx q options)).length < fuel →
      chainedSearch tok idx docs (some q) options fuel lk =
        ((visibleDocs options.sortBy options.order lk docs).filter
          (predOf tok idx q options)).map (mkItemOf q options) := by
  intro fuel
  induction fuel with
  | zero =>
    intro lk h
    omega
  | succ f ih =>
    intro lk hflen
    rw [chainedSearch]
    rw [searchWithCursor_page tok idx docs q options lk hq ht hlimit]
    set G := (visibleDocs options.sortBy options.order lk docs).filter
      (predOf tok idx q options) with hG
    by_cases hGlen : G.length < options.limit
    · simp only [hGlen, if_true]
      rw [List.take_of_length_le (le_of_lt hGlen)]
    · have hlen2 : options.limit ≤ G.length := le_of_not_lt hGlen
      have hlt : options.limit - 1 < G.length := by omega
      have hglast := getLast?_take_eq G options.limit hlimit hlen2 hlt
      simp only [hGlen, if_false, hglast, Option.map_some, Option.map_some,
        Option.map]
      have helem_mem : G.get ⟨options.limit - 1, hlt⟩ ∈ G :=
        List.get_mem G (options.limit - 1) hlt
      have hGsub : G.Sublist
          (visibleDocs options.sortBy options.order lk docs) := by
        rw [hG]
        exact List.filter_sublist _
      have helem_vis : G.get ⟨options.limit - 1, hlt⟩ ∈
          visibleDocs options.sortBy options.order lk docs :=
        hGsub.mem helem_mem
      set k := keyOf options.sortBy (G.get ⟨options.limit - 1, hlt⟩) with hk
      have hlk0 : ∀ l0, lk = some l0 → ordStep options.order l0 k = true := by
        intro l0 hl0
        have h2 := (mem_visibleDocs _ _ _ _ _ helem_vis).2
        rw [hl0, inKeyRange_some] at h2
        exact h2
      have hres := visibleDocs_resume options.sortBy options.order lk docs k hlk0
      have hGpw : G.Pairwise (fun a b =>
          ordStep options.order (keyOf options.sortBy a)
            (keyOf options.sortBy b) = true) :=
        List.Pairwise.sublist hGsub
          (visibleDocs_pairwise options.sortBy options.order lk docs hsort)
      have hdrop := filter_ordStep_eq_drop options.order options.sortBy G hGpw
        options.limit hlimit hlen2 hlt k hk
      have hnext : (visibleDocs options.sortBy options.order (some k) docs).filter
          (predOf tok idx q options) = G.drop options.limit := by
        rw [hres, List.filter_comm, ← hG, hdrop]
      have hnextlen : ((visibleDocs options.sortBy options.order (some k)
          docs).filter (predOf tok idx q options)).length < f := by
        rw [hnext]
        simp only [List.length_drop]
        omega
      rw [ih (some k) hnextlen, hnext]
      rw [← List.map_append, List.take_append_drop]

theorem visibleDocs_length_le (sortBy : SortBy) (order : Order)
    (lk : Option Nat) (docs : List JsDoc) :
    (visibleDocs sortBy order lk docs).length ≤ docs.length := by
  unfold visibleDocs
  cases order with
  | asc =>
    simpa using List.length_filter_le _ docs
  | desc =>
    simpa using List.length_filter_le _ docs

/-- C2: for a static document store (strictly increasing sort keys), cursor
pagination with a fixed limit, feeding each page's `nextKey` back as the
next `lastKey`, concatenates to exactly the items of one unbounded scan
(same documents, same order, no duplicates or omissions); whenever a page
carries a `nextKey` it is the sort key of that page's last matching
document, and a page that ends before reaching the limit (range exhausted)
carries no `nextKey`. -/
theorem cursor_pagination_complete (tok : String → List Token)
    (idx : IndexStore) (docs : List JsDoc) (q : Option String)
    (options : SearchCursorOptions) (fuel : Nat)
    (hsort : docs.Pairwise
      (fun a b => keyOf options.sortBy a < keyOf options.sortBy b))
    (hlimit : 1 ≤ options.limit) (hfuel : docs.length < fuel) :
    chainedSearch tok idx docs q options fuel none =
      (searchWithCursor tok idx docs q
        { options with limit := docs.length + 1, lastKey := none }).items
    ∧ (∀ (lk : Option Nat) (k : Nat),
        (searchWithCursor tok idx docs q
          { options with lastKey := lk }).nextKey = some k →
        ∃ it, (searchWithCursor tok idx docs q
            { options with lastKey := lk }).items.getLast? = some it
          ∧ keyOf options.sortBy it.doc = k)
    ∧ (∀ lk : Option Nat,
        (searchWithCursor tok idx docs q
          { options with lastKey := lk }).items.length < options.limit →
        (searchWithCursor tok idx docs q
          { options with lastKey := lk }).nextKey = none) := by
  cases fuel with
  | zero => omega
  | succ f =>
  cases q with
  | none =>
    refine ⟨?_, ?_, ?_⟩
    · simp [chainedSearch, searchWithCursor]
    · intro lk k h
      simp [searchWithCursor] at h
    · intro lk _
      simp [searchWithCursor]
  | some qs =>
    by_cases hq : qs.isEmpty
    · refine ⟨?_, ?_, ?_⟩
      · simp [chainedSearch, searchWithCursor, hq]
      · intro lk k h
        simp [searchWithCursor, hq] at h
      · intro lk _
        simp [searchWithCursor, hq]
    · by_cases ht : (QueryParser.parse tok (some qs) options.exact).terms.isEmpty
      · refine ⟨?_, ?_, ?_⟩
        · simp [chainedSearch, searchWithCursor, hq, ht]
        · intro lk k h
          simp [searchWithCursor, hq, ht] at h
        · intro lk _
          simp [searchWithCursor, hq, ht]
      · refine ⟨?_, ?_, ?_⟩
        · have hGfuel : ((visibleDocs options.sortBy options.order none
              docs).filter (predOf tok idx qs options)).length < f + 1 := by
            have h1 := List.length_filter_le (predOf tok idx qs options)
              (visibleDocs options.sortBy options.order none docs)
            have h2 := visibleDocs_length_le options.sortBy options.order none docs
            omega
          rw [chainedSearch_eq tok idx docs qs options hsort hq ht hlimit
            (f + 1) none hGfuel]
          have hsplit : ({ options with
              limit := docs.length + 1,
              lastKey := none } : SearchCursorOptions) =
              { (({ options with limit := docs.length + 1 }) :
                  SearchCursorOptions) with
                lastKey := none } := rfl
          rw [hsplit]
          rw [searchWithCursor_page tok idx docs qs
            { options with limit := docs.length + 1 } none hq ht (by simp)]
          have hpred2 : predOf tok idx qs { options with limit := docs.length + 1 } =
              predOf tok idx qs options := rfl
          have hmk2 : mkItemOf qs { options with limit := docs.length + 1 } =
              mkItemOf qs options := rfl
          simp only [hpred2, hmk2]
          have hlen : ((visibleDocs options.sortBy options.order none
              docs).filter (predOf tok idx qs options)).length ≤ docs.length + 1 := by
            have h1 := List.length_filter_le (predOf tok idx qs options)
              (visibleDocs options.sortBy options.order none docs)
            have h2 := visibleDocs_length_le options.sortBy options.order none docs
            omega
          rw [List.take_of_length_le hlen]
        · intro lk k h
          rw [searchWithCursor_page tok idx docs qs options lk hq ht hlimit] at h ⊢
          set G := (visibleDocs options.sortBy options.order lk docs).filter
            (predOf tok idx qs options) with hG
          by_cases hGlen : G.length < options.limit
          · rw [if_pos hGlen] at h
            exact absurd h (by simp)
          · have hlen2 : options.limit ≤ G.length := le_of_not_lt hGlen
            have hlt : options.limit - 1 < G.length := by omega
            have hglast := getLast?_take_eq G options.limit hlimit hlen2 hlt
            rw [if_neg hGlen, hglast] at h
            simp only [Option.map, Option.some.injEq] at h
            refine ⟨mkItemOf qs options (G.get ⟨options.limit - 1, hlt⟩), ?_, ?_⟩
            · simp only [List.getLast?_map, hglast, Option.map]
            · exact h
        · intro lk hlen
          rw [searchWithCursor_page tok idx docs qs options lk hq ht hlimit] at hlen ⊢
          set G := (visibleDocs options.sortBy options.order lk docs).filter
            (predOf tok idx qs options) with hG
          by_cases hGlen : G.length < options.limit
          · rw [if_pos hGlen]
          · exfalso
            simp only [List.length_map, List.length_take] at hlen
            omega

/-- Witness for C2 at a concrete store, query and options. -/
theorem cursor_pagination_complete_witness :
    chainedSearch (fun _ => [⟨"a", 0, 1⟩]) []
      [⟨1, 1, 1, some ["a"], []⟩, ⟨2, 2, 2, some ["b"], []⟩,
       ⟨3, 3, 3, some ["a"], []⟩, ⟨4, 4, 4, some ["a"], []⟩]
      (some "a") { limit := 2 } 5 none =
      (searchWithCursor (fun _ => [⟨"a", 0, 1⟩]) []
        [⟨1, 1, 1, some ["a"], []⟩, ⟨2, 2, 2, some ["b"], []⟩,
         ⟨3, 3, 3, some ["a"], []⟩, ⟨4, 4, 4, some ["a"], []⟩]
        (some "a") { limit := 5, lastKey := none }).items
    ∧ (∀ (lk : Option Nat) (k : Nat),
        (searchWithCursor (fun _ => [⟨"a", 0, 1⟩]) []
          [⟨1, 1, 1, some ["a"], []⟩, ⟨2, 2, 2, some ["b"], []⟩,
           ⟨3, 3, 3, some ["a"], []⟩, ⟨4, 4, 4, some ["a"], []⟩]
          (some "a") { limit := 2, lastKey := lk }).nextKey = some k →
        ∃ it, (searchWithCursor (fun _ => [⟨"a", 0, 1⟩]) []
            [⟨1, 1, 1, some ["a"], []⟩, ⟨2, 2, 2, some ["b"], []⟩,
             ⟨3, 3, 3, some ["a"], []⟩, ⟨4, 4, 4, some ["a"], []⟩]
            (some "a") { limit := 2, lastKey := lk }).items.getLast? = some it
          ∧ keyOf SortBy.byDocId it.doc = k)
    ∧ (∀ lk : Option Nat,
        (searchWithCursor (fun _ => [⟨"a", 0, 1⟩]) []
          [⟨1, 1, 1, some ["a"], []⟩, ⟨2, 2, 2, some ["b"], []⟩,
           ⟨3, 3, 3, some ["a"], []⟩, ⟨4, 4, 4, some ["a"], []⟩]
          (some "a") { limit := 2, lastKey := lk }).items.length < 2 →
        (searchWithCursor (fun _ => [⟨"a", 0, 1⟩]) []
          [⟨1, 1, 1, some ["a"], []⟩, ⟨2, 2, 2, some ["b"], []⟩,
           ⟨3, 3, 3, some ["a"], []⟩, ⟨4, 4, 4, some ["a"], []⟩]
          (some "a") { limit := 2, lastKey := lk }).nextKey = none) :=
  cursor_pagination_complete (fun _ => [⟨"a", 0, 1⟩]) []
    [⟨1, 1, 1, some ["a"], []⟩, ⟨2, 2, 2, some ["b"], []⟩,
     ⟨3, 3, 3, some ["a"], []⟩, ⟨4, 4, 4, some ["a"], []⟩]
    (some "a") { limit := 2 } 5 (by decide) (by decide) (by decide)

end InvIdx
